import Mathlib

/-!
# Trip analyzer: line parser, aggregation and ranked reports

A shallow embedding of `analyzer.cpp` (the functions `parseHourFast`,
`parseLine`, `TripAnalyzer::ingestFile`, `TripAnalyzer::topZones` and
`TripAnalyzer::topBusySlots`) together with theorems about it.

Modelling conventions.

* A `std::string` is a finite sequence of bytes: `Str = List Byte`.
* An input stream (`std::stringstream`, `std::ifstream`) is the sequence of
  bytes that have not been read yet.  `std::getline(stream, out, delim)`
  fails exactly when no byte is left; otherwise it reads up to and including
  the next delimiter (or to the end of the data) and succeeds.
* `std::unordered_map<std::string, V>` is an association list with one entry
  per key; the order of the list is the (unspecified) iteration order.
* Counters are `long long` in the source and only ever incremented by one
  from zero; they are natural numbers here (no load can reach 2^63 rows).
* `int` values (`hour`, `k`) are integers.
-/

namespace TripAnalyzer

/-! ## Bytes and strings -/

/-- One `char` of a `std::string`, seen as an unsigned value. -/
abbrev Byte := Fin 256

/-- A `std::string`. -/
abbrev Str := List Byte

/-- The unread part of an input stream. -/
abbrev Stream := List Byte

/-- The byte `','`. -/
def comma : Byte := 44

/-- The byte `'\n'`. -/
def newline : Byte := 10

/-- The bytes of an ASCII literal (used to write concrete inputs). -/
def ascii (s : String) : Str := s.toList.map (fun c => Fin.ofNat c.toNat)

/-- The function `std::isdigit` on an `unsigned char`: true for `'0'..'9'`. -/
def isdigit (c : Byte) : Bool := decide (48 ≤ c.val) && decide (c.val ≤ 57)

/-! ## `std::getline` -/

/-- Reads bytes up to the next `delim` (which is consumed and not stored) or
to the end of the data; returns the bytes read and the unread rest. -/
def readUntil (delim : Byte) : Stream → Str × Stream
  | [] => ([], [])
  | c :: cs =>
    if c = delim then ([], cs)
    else ((c :: (readUntil delim cs).1), (readUntil delim cs).2)

/-- The call `std::getline(stream, out, delim)`: `none` when the call fails
(nothing left to read), otherwise the string stored in `out` and the stream
after the call. -/
def getline (delim : Byte) (stream : Stream) : Option (Str × Stream) :=
  match stream with
  | [] => none
  | _ :: _ => some (readUntil delim stream)

/-! ## The line parser -/

/-- The function `parseHourFast`: `none` for `return false`, otherwise the
value written to `hour`. -/
def parseHourFast (datetime : Str) : Option Int :=
  if datetime.length < 13 then none
  else
    let c1 := datetime.getD 11 0
    let c2 := datetime.getD 12 0
    if !isdigit c1 || !isdigit c2 then none
    else
      let hour : Int := ((c1.val : Int) - 48) * 10 + ((c2.val : Int) - 48)
      if 0 ≤ hour ∧ hour ≤ 23 then some hour else none

/-- The function `parseLine`: `none` for `return false`, otherwise the values
written to `zone` and `hour`. -/
def parseLine (line : Str) : Option (Str × Int) :=
  match getline comma line with                    -- TripID
  | none => none
  | some (_, ss1) =>
    match getline comma ss1 with                   -- PickupZoneID
    | none => none
    | some (zone, ss2) =>
      if zone.isEmpty then none
      else
        match getline comma ss2 with               -- DropoffZoneID
        | none => none
        | some (_, ss3) =>
          match getline comma ss3 with             -- PickupDateTime
          | none => none
          | some (datetime, _) =>
            match parseHourFast datetime with
            | none => none
            | some hour => some (zone, hour)

/-! ## Aggregation state -/

/-- A `std::unordered_map<std::string, V>`: one entry per key, listed in the
map's iteration order. -/
abbrev UMap (V : Type) := List (Str × V)

/-- The value stored under `key`, if the map has that key. -/
def UMap.find {V : Type} : UMap V → Str → Option V
  | [], _ => none
  | (k, v) :: rest, key => if k = key then some v else UMap.find rest key

/-- The keys of the map, in iteration order. -/
def UMap.keys {V : Type} (m : UMap V) : List Str := m.map Prod.fst

/-- The access `m[key]` followed by the in-place update `f` of the referenced
value: an absent key is first inserted with the value-initialised `dflt`. -/
def UMap.update {V : Type} (dflt : V) (f : V → V) (key : Str) : UMap V → UMap V
  | [] => [(key, f dflt)]
  | (k, v) :: rest =>
    if k = key then (k, f v) :: rest else (k, v) :: UMap.update dflt f key rest

/-- The two file-scope maps `zoneCounts` and `slotCountsByZone`. -/
structure State where
  zoneCounts : UMap Nat
  slotCountsByZone : UMap (List Nat)
  deriving DecidableEq, Repr

/-- A value-initialised `std::array<long long, 24>`. -/
def zeroSlots : List Nat := List.replicate 24 0

/-- The statement `arr[hour]++`. -/
def bumpSlot (hour : Int) (arr : List Nat) : List Nat :=
  arr.set hour.toNat (arr.getD hour.toNat 0 + 1)

/-- The state after `zoneCounts.clear(); slotCountsByZone.clear();`. -/
def State.clear (_ : State) : State :=
  { zoneCounts := [], slotCountsByZone := [] }

/-- One iteration of the `while` loop of `ingestFile` on the line just read. -/
def ingestRow (st : State) (line : Str) : State :=
  if line.isEmpty then st
  else
    match parseLine line with
    | none => st                                   -- dirty row: skip
    | some (zone, hour) =>
      { zoneCounts := UMap.update 0 (· + 1) zone st.zoneCounts
        slotCountsByZone := UMap.update zeroSlots (bumpSlot hour) zone st.slotCountsByZone }

/-- The loop `while (std::getline(fin, line)) { ... }`; `fuel` bounds the
number of iterations (every iteration consumes at least one byte). -/
def ingestLoop : Nat → Stream → State → State
  | 0, _, st => st
  | fuel + 1, fin, st =>
    match getline newline fin with
    | none => st
    | some (line, fin1) => ingestLoop fuel fin1 (ingestRow st line)

/-- The method `TripAnalyzer::ingestFile`.  The argument `fin` is what opening
`csvPath` gives: `none` when `fin.is_open()` is false, otherwise the bytes of
the file. -/
def ingestFile (fin : Option Stream) (st : State) : State :=
  let st := st.clear
  match fin with
  | none => st
  | some data =>
    match getline newline data with                -- skip header row
    | none => st
    | some (_, rest) => ingestLoop rest.length rest st

/-! ## Ranked reports -/

/-- Modelled from the spec: the record `ZoneCount` of the missing header
`analyzer.h`, a zone with its trip count (built as `{p.first, p.second}`). -/
structure ZoneCount where
  zone : Str
  count : Nat
  deriving DecidableEq, Repr

/-- Modelled from the spec: the record `SlotCount` of the missing header
`analyzer.h`, a zone, an hour of the day and the trip count of that slot
(built as `{zone, hour, arr[hour]}`). -/
structure SlotCount where
  zone : Str
  hour : Int
  count : Nat
  deriving DecidableEq, Repr

/-- The function `std::char_traits<char>::compare` on the common prefix of two
strings: the sign of the first difference, bytes compared as unsigned. -/
def traitsCompare : Str → Str → Int
  | a :: as, b :: bs =>
    if a < b then -1 else if b < a then 1 else traitsCompare as bs
  | _, _ => 0

/-- The method `std::string::compare`: the common prefix decides; when it is
equal the shorter string is smaller. -/
def strCompare (a b : Str) : Int :=
  let r := traitsCompare a b
  if r ≠ 0 then r
  else if a.length < b.length then -1
  else if b.length < a.length then 1
  else 0

/-- The operator `<` of `std::string`. -/
def strLt (a b : Str) : Bool := decide (strCompare a b < 0)

/-- The comparator `cmp` of `topZones`. -/
def cmpZone (a b : ZoneCount) : Bool :=
  if a.count ≠ b.count then decide (a.count > b.count)   -- desc
  else strLt a.zone b.zone                               -- asc

/-- The comparator `cmp` of `topBusySlots`. -/
def cmpSlot (a b : SlotCount) : Bool :=
  if a.count ≠ b.count then decide (a.count > b.count)
  else if a.zone ≠ b.zone then strLt a.zone b.zone
  else decide (a.hour < b.hour)

/-- The two routines of `<algorithm>` that the reports call.  Their code is
the C++ library's; only what the C++ standard promises about them is assumed
(see `StdAlgorithms.Conforms`).  `stdPartialSort cmp k v` is
`std::partial_sort(v.begin(), v.begin() + k, v.end(), cmp)`. -/
structure StdAlgorithms where
  stdSort : {α : Type} → (α → α → Bool) → List α → List α
  stdPartialSort : {α : Type} → (α → α → Bool) → Nat → List α → List α

/-- The requirement `Compare` of the C++ standard: a strict weak ordering. -/
def StrictWeak {α : Type} (cmp : α → α → Bool) : Prop :=
  (∀ a, cmp a a = false) ∧
  (∀ a b c, cmp a b = true → cmp b c = true → cmp a c = true) ∧
  (∀ a b c, cmp a b = false → cmp b c = false → cmp a c = false)

/-- A sequence is sorted with respect to `cmp`: no later element compares
less than an earlier one. -/
def SortedBy {α : Type} (cmp : α → α → Bool) (l : List α) : Prop :=
  l.Pairwise (fun a b => cmp b a = false)

/-- What the C++ standard promises.  `std::sort` rearranges the range so that
it is sorted.  `std::partial_sort` rearranges the range so that its first `k`
elements are the `k` smallest in sorted order; the order of the others is
unspecified. -/
def StdAlgorithms.Conforms (L : StdAlgorithms) : Prop :=
  ∀ (α : Type) (cmp : α → α → Bool), StrictWeak cmp → ∀ l : List α,
    ((L.stdSort cmp l).Perm l ∧ SortedBy cmp (L.stdSort cmp l)) ∧
    ∀ k, k ≤ l.length →
      (L.stdPartialSort cmp k l).Perm l ∧
      SortedBy cmp ((L.stdPartialSort cmp k l).take k) ∧
      ∀ a ∈ (L.stdPartialSort cmp k l).take k,
        ∀ b ∈ (L.stdPartialSort cmp k l).drop k, cmp b a = false

/-- The method `TripAnalyzer::topZones`. -/
def topZones (L : StdAlgorithms) (st : State) (k : Int) : List ZoneCount :=
  let result := st.zoneCounts.map (fun p => ZoneCount.mk p.1 p.2)
  let k := if k < 0 then 0 else k
  if k.toNat < result.length then
    (L.stdPartialSort cmpZone k.toNat result).take k.toNat   -- resize(k)
  else
    L.stdSort cmpZone result

/-- The collection loop of `topBusySlots`: one record per zone and hour whose
count is positive. -/
def busySlots (slots : UMap (List Nat)) : List SlotCount :=
  slots.flatMap (fun p =>
    (List.range 24).filterMap (fun hour =>
      if p.2.getD hour 0 > 0 then some (SlotCount.mk p.1 hour (p.2.getD hour 0))
      else none))

/-- The method `TripAnalyzer::topBusySlots`. -/
def topBusySlots (L : StdAlgorithms) (st : State) (k : Int) : List SlotCount :=
  let result := busySlots st.slotCountsByZone
  let k := if k < 0 then 0 else k
  if k.toNat < result.length then
    (L.stdPartialSort cmpSlot k.toNat result).take k.toNat   -- resize(k)
  else
    L.stdSort cmpSlot result

/-! ## A reference implementation of the two library routines -/

/-- Inserts `a` before the first element that does not precede it. -/
def insertBy {α : Type} (cmp : α → α → Bool) (a : α) : List α → List α
  | [] => [a]
  | b :: l => if cmp b a then b :: insertBy cmp a l else a :: b :: l

/-- Insertion sort with respect to `cmp`. -/
def isort {α : Type} (cmp : α → α → Bool) : List α → List α
  | [] => []
  | a :: l => insertBy cmp a (isort cmp l)

/-- A conforming library: insertion sort, and a partial sort that leaves the
elements after the first `k` in reverse order. -/
def refAlgorithms : StdAlgorithms where
  stdSort := fun cmp l => isort cmp l
  stdPartialSort := fun cmp k l => (isort cmp l).take k ++ ((isort cmp l).drop k).reverse

/-! ## Vocabulary of the specification -/

/-- The comma-delimited fields of a line (a line with `n` commas has `n + 1`
fields). -/
def fields : Str → List Str
  | [] => [[]]
  | c :: cs =>
    if c = comma then [] :: fields cs
    else
      match fields cs with
      | [] => [[c]]
      | f :: fs => (c :: f) :: fs

/-- The field number `i` (counted from 0) of a line; empty when absent. -/
def field (i : Nat) (line : Str) : Str := (fields line).getD i []

/-- The bytes of a text file made of the given lines, each followed by a
newline; `finalEol` says whether the last line has its newline too. -/
def fileBytes : List Str → Bool → Stream
  | [], _ => []
  | [l], false => l
  | l :: ls, eol => l ++ newline :: fileBytes ls eol

/-- A line of text holds no newline. -/
abbrev IsLine (l : Str) : Prop := newline ∉ l

/-- The number of lines that are non-empty and that `parseLine` accepts with
zone `z` and hour `h`. -/
def acceptedAt (rows : List Str) (z : Str) (h : Nat) : Nat :=
  rows.countP (fun l => !l.isEmpty && decide (parseLine l = some (z, (h : Int))))

/-- The number of lines that `parseLine` accepts with zone `z`. -/
def acceptedIn (rows : List Str) (z : Str) : Nat :=
  rows.countP (fun l => decide ((parseLine l).map Prod.fst = some z))

/-- The two-digit value `(d[11]-'0')*10 + (d[12]-'0')` of a datetime text. -/
def hourValue (d : Str) : Int :=
  (((d.getD 11 0).val : Int) - 48) * 10 + (((d.getD 12 0).val : Int) - 48)

/-- The parser read off the fields of the line: the second field is the zone,
the fourth field carries the hour. -/
def parseFields : List Str → Option (Str × Int)
  | _ :: f1 :: _ :: f3 :: _ =>
    if f1.isEmpty then none else (parseHourFast f3).map (fun h => (f1, h))
  | _ => none

/-- Every mapped value of `slotCountsByZone` has the 24 elements of its type
`std::array<long long, 24>`. -/
def SlotsSized (st : State) : Prop :=
  ∀ p ∈ st.slotCountsByZone, p.2.length = 24

/-- The count `zoneCounts[z]`, read as 0 when `z` is not a key. -/
def State.zoneCount (st : State) (z : Str) : Nat :=
  (UMap.find st.zoneCounts z).getD 0

/-- The count `slotCounts[z][h]`, read as 0 when `z` is not a key. -/
def State.slotCount (st : State) (z : Str) (h : Nat) : Nat :=
  ((UMap.find st.slotCountsByZone z).getD zeroSlots).getD h 0

/-- The invariant of a load: a zone is a key of both maps or of neither, and
its trip count is the sum of its 24 hour counts. -/
def Consistent (st : State) : Prop :=
  ∀ z, (UMap.find st.zoneCounts z = none ∧ UMap.find st.slotCountsByZone z = none) ∨
    ∃ n arr, UMap.find st.zoneCounts z = some n ∧
      UMap.find st.slotCountsByZone z = some arr ∧ arr.length = 24 ∧ n = arr.sum

/-- The maps hold exactly the counts of the accepted lines of `rows`. -/
def Counted (rows : List Str) (st : State) : Prop :=
  (∀ z, UMap.find st.zoneCounts z =
    if acceptedIn rows z = 0 then none else some (acceptedIn rows z)) ∧
  (∀ z, UMap.find st.slotCountsByZone z =
    if acceptedIn rows z = 0 then none
    else some ((List.range 24).map (acceptedAt rows z)))

/-- The comparator is a strict total order. -/
def StrictTotal {α : Type} (cmp : α → α → Bool) : Prop :=
  (∀ a, cmp a a = false) ∧
  (∀ a b c, cmp a b = true → cmp b c = true → cmp a c = true) ∧
  (∀ a b, cmp a b = false → cmp b a = false → a = b)

/-- Spec order of zone records. -/
def zoneBefore (a b : ZoneCount) : Bool :=
  decide (b.count < a.count ∨ (a.count = b.count ∧ List.Lex (· < ·) a.zone b.zone))

/-- Spec order of slot records. -/
def slotBefore (a b : SlotCount) : Bool :=
  decide (b.count < a.count ∨ (a.count = b.count ∧
    (List.Lex (· < ·) a.zone b.zone ∨ (a.zone = b.zone ∧ a.hour < b.hour))))

/-- All (zone, count) entries of `zoneCounts`: one per key, with the count
stored under that key. -/
def allZones (st : State) : List ZoneCount :=
  st.zoneCounts.keys.map (fun z => ZoneCount.mk z (st.zoneCount z))

/-- The entries of `zoneCounts` arranged by count descending, ties broken by
zone ascending in byte-wise lexicographic order. -/
def rankedZones (st : State) : List ZoneCount := isort zoneBefore (allZones st)

/-- All entries `(z, h, slotCounts[z][h])` with `z` a key, `h` in `0..23` and
`slotCounts[z][h] > 0`. -/
def allSlots (st : State) : List SlotCount :=
  st.slotCountsByZone.keys.flatMap (fun z =>
    ((List.range 24).filter (fun h => decide (0 < st.slotCount z h))).map
      (fun (h : Nat) => SlotCount.mk z h (st.slotCount z h)))

/-- The positive slots arranged by count descending, ties broken by zone
ascending (byte-wise), then by hour ascending. -/
def rankedSlots (st : State) : List SlotCount := isort slotBefore (allSlots st)

/-- The two states hold the same mappings: every key has the same value (or
is absent) in both. -/
def SameMaps (s1 s2 : State) : Prop :=
  (∀ z, UMap.find s1.zoneCounts z = UMap.find s2.zoneCounts z) ∧
  (∀ z, UMap.find s1.slotCountsByZone z = UMap.find s2.slotCountsByZone z)

/-- The number of lines that `parseLine` accepts. -/
def acceptedCount (rows : List Str) : Nat :=
  rows.countP (fun l => (parseLine l).isSome)

/-- The records that the collection loop of `topBusySlots` makes of one map
entry. -/
def zoneSlots (p : Str × List Nat) : List SlotCount :=
  (List.range 24).filterMap (fun hour =>
    if p.2.getD hour 0 > 0 then some (SlotCount.mk p.1 hour (p.2.getD hour 0))
    else none)

/-- The invariant of a load on totals: every array has 24 elements, every
zone count is at least 1, and the zone counts add up to what the hour counts
add up to. -/
def Balanced (st : State) : Prop :=
  SlotsSized st ∧ (∀ p ∈ st.zoneCounts, 1 ≤ p.2) ∧
  (st.zoneCounts.map Prod.snd).sum = (st.slotCountsByZone.map (fun p => p.2.sum)).sum

/-! ## The line parser: lemmas -/

theorem getline_nil (d : Byte) : getline d [] = none := rfl

theorem getline_ne_nil (d : Byte) {s : Stream} (h : s ≠ []) :
    getline d s = some (readUntil d s) := by
  cases s with
  | nil => exact absurd rfl h
  | cons c cs => rfl

theorem readUntil_not_mem (d : Byte) (s : Stream) (h : d ∉ s) :
    readUntil d s = (s, []) := by
  induction s with
  | nil => rfl
  | cons c cs ih =>
    have hc : c ≠ d := fun e => h (by simp [e])
    have hcs : d ∉ cs := fun e => h (by simp [e])
    simp [readUntil, hc, ih hcs]

theorem readUntil_append (d : Byte) (t r : Stream) (h : d ∉ t) :
    readUntil d (t ++ d :: r) = (t, r) := by
  induction t with
  | nil => simp [readUntil]
  | cons c cs ih =>
    have hc : c ≠ d := fun e => h (by simp [e])
    have hcs : d ∉ cs := fun e => h (by simp [e])
    simp [readUntil, hc, ih hcs]

theorem fields_ne_nil (s : Str) : fields s ≠ [] := by
  cases s with
  | nil => simp [fields]
  | cons c cs =>
    simp only [fields]
    split
    · simp
    · split <;> simp

theorem fields_not_mem (s : Str) (h : comma ∉ s) : fields s = [s] := by
  induction s with
  | nil => rfl
  | cons c cs ih =>
    have hc : c ≠ comma := fun e => h (by simp [e])
    have hcs : comma ∉ cs := fun e => h (by simp [e])
    simp [fields, hc, ih hcs]

theorem fields_mem (s : Str) (h : comma ∈ s) :
    fields s = (readUntil comma s).1 :: fields (readUntil comma s).2 := by
  induction s with
  | nil => simp at h
  | cons c cs ih =>
    by_cases hc : c = comma
    · simp [fields, readUntil, hc]
    · have hcs : comma ∈ cs := by
        rcases List.mem_cons.1 h with e | e
        · exact absurd e.symm hc
        · exact e
      simp [fields, readUntil, hc, ih hcs]

theorem fields_length (s : Str) : (fields s).length = s.count comma + 1 := by
  induction s with
  | nil => rfl
  | cons c cs ih =>
    by_cases hc : c = comma
    · simp [fields, hc, ih]
    · have hne := fields_ne_nil cs
      have : (c == comma) = false := by simpa using hc
      simp only [fields, hc, if_false]
      cases hf : fields cs with
      | nil => exact absurd hf hne
      | cons f fs =>
        rw [hf] at ih
        simp [List.count_cons, this] at ih ⊢
        omega

/-- What one `getline` on `','` does, in terms of the fields of the data. -/
theorem getline_comma_cases (s : Stream) :
    (s = [] ∧ getline comma s = none ∧ fields s = [[]]) ∨
    (∃ t r, getline comma s = some (t, r) ∧
      ((r = [] ∧ fields s = [t]) ∨ fields s = t :: fields r)) := by
  by_cases hs : s = []
  · left; subst hs; exact ⟨rfl, rfl, rfl⟩
  · right
    refine ⟨(readUntil comma s).1, (readUntil comma s).2, getline_ne_nil comma hs, ?_⟩
    by_cases hc : comma ∈ s
    · right; exact fields_mem s hc
    · left; simp [readUntil_not_mem comma s hc, fields_not_mem s hc]

theorem parseHourFast_nil : parseHourFast [] = none := rfl

theorem parseLine_eq_parseFields (line : Str) :
    parseLine line = parseFields (fields line) := by
  unfold parseLine
  rcases getline_comma_cases line with ⟨_, h0, f0⟩ | ⟨t0, s1, h0, f0⟩
  · rw [h0, f0]; rfl
  rw [h0]; dsimp only
  rcases getline_comma_cases s1 with ⟨e1, h1, f1⟩ | ⟨t1, s2, h1, f1⟩
  · rw [h1]; rcases f0 with ⟨_, f0⟩ | f0 <;> rw [f0] <;> simp [parseFields, f1]
  rw [h1]; dsimp only
  rcases f0 with ⟨e0, f0⟩ | f0
  · subst e0; simp [getline] at h1
  by_cases hz : t1.isEmpty = true
  · rw [if_pos hz, f0]
    rcases f1 with ⟨_, f1⟩ | f1 <;> rw [f1]
    · rfl
    · cases hf : fields s2 with
      | nil => rfl
      | cons a l => cases l <;> simp [parseFields, hz]
  rw [if_neg hz]
  rcases getline_comma_cases s2 with ⟨e2, h2, f2⟩ | ⟨t2, s3, h2, f2⟩
  · rw [h2, f0]; rcases f1 with ⟨_, f1⟩ | f1 <;> rw [f1] <;> simp [parseFields, f2]
  rw [h2]; dsimp only
  rcases f1 with ⟨e1, f1⟩ | f1
  · subst e1; simp [getline] at h2
  rcases getline_comma_cases s3 with ⟨e3, h3, f3⟩ | ⟨t3, s4, h3, f3⟩
  · rw [h3, f0, f1]
    rcases f2 with ⟨_, f2⟩ | f2 <;> rw [f2]
    · rfl
    · simp [f3, parseFields, parseHourFast_nil]
  rw [h3]; dsimp only
  rcases f2 with ⟨e2, f2⟩ | f2
  · subst e2; simp [getline] at h3
  have hf : ∃ tl, fields line = t0 :: t1 :: t2 :: t3 :: tl := by
    rcases f3 with ⟨_, f3⟩ | f3
    · exact ⟨[], by rw [f0, f1, f2, f3]⟩
    · exact ⟨fields s4, by rw [f0, f1, f2, f3]⟩
  obtain ⟨tl, hf⟩ := hf
  rw [hf]
  simp only [parseFields, hz]
  cases parseHourFast t3 <;> simp

theorem digits_test (c1 c2 : Byte) :
    (!isdigit c1 || !isdigit c2) = true ↔ (isdigit c1 = false ∨ isdigit c2 = false) := by
  cases isdigit c1 <;> cases isdigit c2 <;> simp

theorem parseHourFast_eq_some (d : Str) (h : Int) :
    parseHourFast d = some h ↔
      (13 ≤ d.length ∧ isdigit (d.getD 11 0) = true ∧ isdigit (d.getD 12 0) = true ∧
        h = hourValue d ∧ 0 ≤ h ∧ h ≤ 23) := by
  unfold parseHourFast hourValue
  generalize d.getD 11 0 = c1
  generalize d.getD 12 0 = c2
  by_cases hl : d.length < 13
  · rw [if_pos hl]
    constructor
    · intro e; cases e
    · intro e; omega
  · rw [if_neg hl]
    by_cases hd : (!isdigit c1 || !isdigit c2) = true
    · rw [if_pos hd]
      constructor
      · intro e; cases e
      · rintro ⟨_, e1, e2, _⟩
        rcases (digits_test c1 c2).1 hd with e | e
        · rw [e1] at e; cases e
        · rw [e2] at e; cases e
    · rw [if_neg hd]
      have hd1 : isdigit c1 = true := by
        cases e : isdigit c1
        · exact absurd ((digits_test c1 c2).2 (Or.inl e)) hd
        · rfl
      have hd2 : isdigit c2 = true := by
        cases e : isdigit c2
        · exact absurd ((digits_test c1 c2).2 (Or.inr e)) hd
        · rfl
      constructor
      · intro e
        dsimp only at e
        split at e
        · rename_i hr
          cases e
          exact ⟨by omega, hd1, hd2, rfl, hr.1, hr.2⟩
        · cases e
      · rintro ⟨_, _, _, rfl, h0, h23⟩
        rw [if_pos ⟨h0, h23⟩]

theorem parseHourFast_eq_none (d : Str) :
    parseHourFast d = none ↔
      (d.length < 13 ∨ (isdigit (d.getD 11 0) = false ∨ isdigit (d.getD 12 0) = false) ∨
        ¬ (0 ≤ hourValue d ∧ hourValue d ≤ 23)) := by
  unfold parseHourFast hourValue
  generalize d.getD 11 0 = c1
  generalize d.getD 12 0 = c2
  by_cases hl : d.length < 13
  · simp only [hl, if_true, true_or]
  · rw [if_neg hl]
    by_cases hd : (!isdigit c1 || !isdigit c2) = true
    · rw [if_pos hd]
      exact ⟨fun _ => Or.inr (Or.inl ((digits_test c1 c2).1 hd)), fun _ => rfl⟩
    · rw [if_neg hd]
      constructor
      · intro e
        dsimp only at e
        split at e
        · cases e
        · rename_i hn; exact Or.inr (Or.inr hn)
      · rintro (e | e | e)
        · exact absurd e hl
        · exact absurd ((digits_test c1 c2).2 e) hd
        · rw [if_neg e]

theorem parseLine_accepts (line z : Str) (h : Int) (hp : parseLine line = some (z, h)) :
    z = field 1 line ∧ z ≠ [] ∧ h = hourValue (field 3 line) ∧ 0 ≤ h ∧ h ≤ 23 := by
  rw [parseLine_eq_parseFields] at hp
  unfold field
  rcases hf : fields line with _ | ⟨f0, _ | ⟨f1, _ | ⟨f2, _ | ⟨f3, tl⟩⟩⟩⟩ <;> rw [hf] at hp <;>
    simp only [parseFields] at hp
  · cases hp
  · cases hp
  · cases hp
  · cases hp
  by_cases hz : f1.isEmpty = true
  · rw [if_pos hz] at hp; cases hp
  · rw [if_neg hz, Option.map_eq_some'] at hp
    obtain ⟨h', hh, he⟩ := hp
    simp only [Prod.mk.injEq] at he
    obtain ⟨rfl, rfl⟩ := he
    have := (parseHourFast_eq_some f3 h').1 hh
    refine ⟨rfl, ?_, this.2.2.2.1, this.2.2.2.2.1, this.2.2.2.2.2⟩
    intro e; simp [e] at hz

/-! ## Maps: lemmas -/

theorem find_update {V : Type} (dflt : V) (f : V → V) (key z : Str) (m : UMap V) :
    UMap.find (UMap.update dflt f key m) z =
      if z = key then some (f ((UMap.find m key).getD dflt)) else UMap.find m z := by
  induction m with
  | nil =>
    by_cases hz : z = key
    · simp [UMap.update, UMap.find, hz]
    · have : ¬ key = z := fun e => hz e.symm
      simp [UMap.update, UMap.find, hz, this]
  | cons p rest ih =>
    obtain ⟨k, v⟩ := p
    by_cases hk : k = key
    · subst hk
      by_cases hz : z = k
      · subst hz; simp [UMap.update, UMap.find]
      · have : ¬ k = z := fun e => hz e.symm
        simp [UMap.update, UMap.find, hz, this]
    · by_cases hz : z = key
      · subst hz
        simp [UMap.update, UMap.find, hk, ih]
      · by_cases hkz : k = z
        · simp [UMap.update, UMap.find, hk, hz, hkz]
        · simp [UMap.update, UMap.find, hk, hz, hkz, ih]

theorem find_eq_none {V : Type} (m : UMap V) (z : Str) :
    UMap.find m z = none ↔ z ∉ m.keys := by
  induction m with
  | nil => simp [UMap.find, UMap.keys]
  | cons p rest ih =>
    obtain ⟨k, v⟩ := p
    by_cases hk : k = z
    · simp [UMap.find, UMap.keys, hk]
    · have : ¬ z = k := fun e => hk e.symm
      simp only [UMap.find, hk, if_false, ih]
      simp [UMap.keys, this]

theorem mem_keys_iff {V : Type} (m : UMap V) (z : Str) :
    z ∈ m.keys ↔ ∃ v, UMap.find m z = some v := by
  have := find_eq_none m z
  cases h : UMap.find m z with
  | none => simp [(this.1 h)]
  | some v =>
    have hn : ¬ (z ∉ m.keys) := fun e => by rw [this.2 e] at h; cases h
    simp only [not_not] at hn
    simp [hn]

theorem find_mem {V : Type} (m : UMap V) (z : Str) (v : V) (h : UMap.find m z = some v) :
    (z, v) ∈ m := by
  induction m with
  | nil => cases h
  | cons p rest ih =>
    obtain ⟨k, w⟩ := p
    by_cases hk : k = z
    · simp only [UMap.find, hk, if_true, Option.some.injEq] at h
      subst h; subst hk; simp
    · simp only [UMap.find, hk, if_false] at h
      exact List.mem_cons_of_mem _ (ih h)

theorem keys_update {V : Type} (dflt : V) (f : V → V) (key : Str) (m : UMap V) :
    (UMap.update dflt f key m).keys = if key ∈ m.keys then m.keys else m.keys ++ [key] := by
  induction m with
  | nil => simp [UMap.update, UMap.keys]
  | cons p rest ih =>
    obtain ⟨k, v⟩ := p
    by_cases hk : k = key
    · subst hk; simp [UMap.update, UMap.keys]
    · have hk2 : ¬ key = k := fun e => hk e.symm
      simp only [UMap.update, hk, if_false]
      simp only [UMap.keys, List.map_cons, List.mem_cons, hk2, false_or] at ih ⊢
      rw [ih]
      split <;> simp

theorem nodup_keys_update {V : Type} (dflt : V) (f : V → V) (key : Str) (m : UMap V)
    (h : m.keys.Nodup) : (UMap.update dflt f key m).keys.Nodup := by
  rw [keys_update]
  split
  · exact h
  · rename_i hk
    rw [List.nodup_append]
    refine ⟨h, by simp, ?_⟩
    intro a ha hb
    simp only [List.mem_singleton] at hb
    subst hb; exact hk ha

theorem mem_update {V : Type} (dflt : V) (f : V → V) (key : Str) (m : UMap V)
    (P : V → Prop) (hd : P (f dflt)) (hf : ∀ p ∈ m, P p.2 → P (f p.2)) (hm : ∀ p ∈ m, P p.2) :
    ∀ p ∈ UMap.update dflt f key m, P p.2 := by
  induction m with
  | nil =>
    intro p hp
    simp only [UMap.update, List.mem_singleton] at hp
    subst hp; exact hd
  | cons q rest ih =>
    obtain ⟨k, v⟩ := q
    have hrest := ih (fun p hp => hf p (List.mem_cons_of_mem _ hp))
      (fun p hp => hm p (List.mem_cons_of_mem _ hp))
    intro p hp
    by_cases hk : k = key
    · simp only [UMap.update, hk, if_true, List.mem_cons] at hp
      rcases hp with rfl | hp
      · exact hf (k, v) (by simp) (hm (k, v) (by simp))
      · exact hm p (List.mem_cons_of_mem _ hp)
    · simp only [UMap.update, hk, if_false, List.mem_cons] at hp
      rcases hp with rfl | hp
      · exact hm (k, v) (by simp)
      · exact hrest p hp

/-! ## The load: lemmas -/

theorem zeroSlots_length : zeroSlots.length = 24 := rfl

theorem zeroSlots_sum : zeroSlots.sum = 0 := rfl

theorem bumpSlot_length (hour : Int) (arr : List Nat) :
    (bumpSlot hour arr).length = arr.length := by
  simp [bumpSlot]

theorem sum_set_succ (arr : List Nat) (i : Nat) (hi : i < arr.length) :
    (arr.set i (arr.getD i 0 + 1)).sum = arr.sum + 1 := by
  induction arr generalizing i with
  | nil => simp at hi
  | cons a l ih =>
    cases i with
    | zero => simp; omega
    | succ j =>
      have hj : j < l.length := by simpa using hi
      have := ih j hj
      simp only [List.set_cons_succ, List.sum_cons, List.getD_cons_succ]
      omega

theorem bumpSlot_sum (hour : Int) (arr : List Nat) (h0 : 0 ≤ hour) (h23 : hour ≤ 23)
    (hl : arr.length = 24) : (bumpSlot hour arr).sum = arr.sum + 1 := by
  unfold bumpSlot
  exact sum_set_succ arr hour.toNat (by omega)

theorem ingestRow_skip (st : State) (x : Str) (hx : x = [] ∨ parseLine x = none) :
    ingestRow st x = st := by
  unfold ingestRow
  rcases hx with rfl | hx
  · rfl
  · rw [hx]; split <;> rfl

theorem ingestRow_accept (st : State) (line z : Str) (h : Int)
    (hp : parseLine line = some (z, h)) :
    ingestRow st line =
      { zoneCounts := UMap.update 0 (· + 1) z st.zoneCounts
        slotCountsByZone := UMap.update zeroSlots (bumpSlot h) z st.slotCountsByZone } := by
  unfold ingestRow
  have hne : line.isEmpty = false := by
    cases line with
    | nil => simp [parseLine, getline] at hp
    | cons c cs => rfl
  rw [hne, hp]
  rfl

theorem ingestRow_cases (st : State) (line : Str) :
    ingestRow st line = st ∨
    ∃ z h, parseLine line = some (z, h) ∧ 0 ≤ h ∧ h ≤ 23 ∧
      ingestRow st line =
        { zoneCounts := UMap.update 0 (· + 1) z st.zoneCounts
          slotCountsByZone := UMap.update zeroSlots (bumpSlot h) z st.slotCountsByZone } := by
  cases hp : parseLine line with
  | none => exact Or.inl (ingestRow_skip st line (Or.inr hp))
  | some r =>
    obtain ⟨z, h⟩ := r
    have := parseLine_accepts line z h hp
    exact Or.inr ⟨z, h, rfl, this.2.2.2.1, this.2.2.2.2, ingestRow_accept st line z h hp⟩

theorem ingestRow_sized (st : State) (line : Str) (hs : SlotsSized st) :
    SlotsSized (ingestRow st line) := by
  rcases ingestRow_cases st line with e | ⟨z, h, _, _, _, e⟩
  · rw [e]; exact hs
  · rw [e]
    exact mem_update zeroSlots (bumpSlot h) z st.slotCountsByZone (fun a => a.length = 24)
      (bumpSlot_length h zeroSlots) (fun p _ hp => (bumpSlot_length h p.2).trans hp) hs

theorem ingestRow_consistent (st : State) (line : Str) (hc : Consistent st) :
    Consistent (ingestRow st line) := by
  rcases ingestRow_cases st line with e | ⟨z, h, _, h0, h23, e⟩
  · rw [e]; exact hc
  · rw [e]
    intro y
    simp only [find_update]
    by_cases hy : y = z
    · subst hy
      right
      simp only [if_true]
      rcases hc y with ⟨e1, e2⟩ | ⟨n, arr, e1, e2, hl, hn⟩
      · refine ⟨_, _, rfl, rfl, ?_, ?_⟩
        · rw [e2, bumpSlot_length]; rfl
        · rw [e1, e2]
          simp only [Option.getD_none]
          rw [bumpSlot_sum h zeroSlots h0 h23 rfl]; rfl
      · refine ⟨_, _, rfl, rfl, ?_, ?_⟩
        · rw [e2, bumpSlot_length]; exact hl
        · rw [e1, e2]
          simp only [Option.getD_some]
          rw [bumpSlot_sum h arr h0 h23 hl, hn]
    · simp only [hy, if_false]
      exact hc y

theorem ingestLoop_invariant (P : State → Prop)
    (hstep : ∀ st line, P st → P (ingestRow st line)) (fuel : Nat) (fin : Stream)
    (st : State) (h : P st) : P (ingestLoop fuel fin st) := by
  induction fuel generalizing fin st with
  | zero => exact h
  | succ n ih =>
    unfold ingestLoop
    cases getline newline fin with
    | none => exact h
    | some r => exact ih r.2 _ (hstep st r.1 h)

theorem ingestFile_invariant (P : State → Prop)
    (h0 : P { zoneCounts := [], slotCountsByZone := [] })
    (hstep : ∀ st line, P st → P (ingestRow st line)) (fin : Option Stream) (st : State) :
    P (ingestFile fin st) := by
  unfold ingestFile
  cases fin with
  | none => exact h0
  | some data =>
    dsimp only
    cases getline newline data with
    | none => exact h0
    | some r => exact ingestLoop_invariant P hstep _ _ _ h0

theorem ingestFile_consistent (fin : Option Stream) (st : State) :
    Consistent (ingestFile fin st) :=
  ingestFile_invariant Consistent (fun _ => Or.inl ⟨rfl, rfl⟩) ingestRow_consistent fin st

theorem ingestFile_sized (fin : Option Stream) (st : State) :
    SlotsSized (ingestFile fin st) :=
  ingestFile_invariant SlotsSized (fun p hp => by cases hp) ingestRow_sized fin st

/-! ### Files made of lines -/

theorem fileBytes_cons (l : Str) (ls : List Str) (eol : Bool)
    (h : ls ≠ [] ∨ eol = true) :
    fileBytes (l :: ls) eol = l ++ newline :: fileBytes ls eol := by
  cases ls with
  | nil =>
    cases eol with
    | false => simp at h
    | true => rfl
  | cons a as => cases eol <;> rfl

theorem getline_line (l : Str) (rest : Stream) (hl : IsLine l) :
    getline newline (l ++ newline :: rest) = some (l, rest) := by
  rw [getline_ne_nil newline (by simp), readUntil_append newline l rest hl]

theorem ingestLoop_fileBytes (rows : List Str) (eol : Bool) (hl : ∀ l ∈ rows, IsLine l)
    (fuel : Nat) (st : State) (hf : (fileBytes rows eol).length ≤ fuel) :
    ingestLoop fuel (fileBytes rows eol) st = rows.foldl ingestRow st := by
  induction rows generalizing fuel st with
  | nil =>
    cases fuel <;> rfl
  | cons l ls ih =>
    have hll : IsLine l := hl l (by simp)
    have hls : ∀ a ∈ ls, IsLine a := fun a ha => hl a (List.mem_cons_of_mem _ ha)
    by_cases hc : ls ≠ [] ∨ eol = true
    · rw [fileBytes_cons l ls eol hc] at hf ⊢
      simp only [List.length_append, List.length_cons] at hf
      cases fuel with
      | zero => omega
      | succ n =>
        unfold ingestLoop
        rw [getline_line l _ hll]
        dsimp only
        rw [ih hls n _ (by omega)]
        rfl
    · have h1 : ls = [] := by
        by_contra e; exact hc (Or.inl e)
      have h2 : eol = false := by
        cases eol
        · rfl
        · exact absurd (Or.inr rfl) hc
      subst h1; subst h2
      simp only [fileBytes, List.foldl_cons, List.foldl_nil] at hf ⊢
      by_cases hl0 : l = []
      · subst hl0
        cases fuel <;> rfl
      · cases fuel with
        | zero =>
          cases l with
          | nil => exact absurd rfl hl0
          | cons c cs => simp at hf
        | succ n =>
          unfold ingestLoop
          rw [getline_ne_nil newline hl0, readUntil_not_mem newline l hll]
          dsimp only
          cases n <;> rfl

theorem ingestFile_fileBytes (hdr : Str) (rows : List Str) (eol : Bool) (st : State)
    (hl : ∀ l ∈ hdr :: rows, IsLine l) :
    ingestFile (some (fileBytes (hdr :: rows) eol)) st =
      rows.foldl ingestRow { zoneCounts := [], slotCountsByZone := [] } := by
  have hh : IsLine hdr := hl hdr (by simp)
  have hr : ∀ a ∈ rows, IsLine a := fun a ha => hl a (List.mem_cons_of_mem _ ha)
  unfold ingestFile
  dsimp only
  by_cases hc : rows ≠ [] ∨ eol = true
  · rw [fileBytes_cons hdr rows eol hc, getline_line hdr _ hh]
    dsimp only
    exact ingestLoop_fileBytes rows eol hr _ _ (le_refl _)
  · have h1 : rows = [] := by
      by_contra e; exact hc (Or.inl e)
    have h2 : eol = false := by
      cases eol
      · rfl
      · exact absurd (Or.inr rfl) hc
    subst h1; subst h2
    simp only [fileBytes, List.foldl_nil]
    by_cases hl0 : hdr = []
    · subst hl0; rfl
    · rw [getline_ne_nil newline hl0, readUntil_not_mem newline hdr hh]
      rfl

theorem readUntil_length (d : Byte) (s : Stream) : (readUntil d s).2.length ≤ s.length - 1 := by
  induction s with
  | nil => simp [readUntil]
  | cons c cs ih =>
    simp only [readUntil]
    split
    · simp
    · simp only [List.length_cons, Nat.add_sub_cancel]
      omega

/-- Any two amounts of fuel that are at least the length of the stream give
the same state: with that much fuel the loop runs to the end of the file. -/
theorem ingestLoop_fuel (f1 f2 : Nat) (fin : Stream) (st : State) (h1 : fin.length ≤ f1)
    (h2 : fin.length ≤ f2) : ingestLoop f1 fin st = ingestLoop f2 fin st := by
  induction f1 generalizing f2 fin st with
  | zero =>
    have : fin = [] := List.eq_nil_of_length_eq_zero (by omega)
    subst this
    cases f2 <;> rfl
  | succ n ih =>
    cases fin with
    | nil => cases f2 <;> rfl
    | cons c cs =>
      have hlen := readUntil_length newline (c :: cs)
      simp only [List.length_cons, Nat.add_sub_cancel] at hlen h1 h2
      cases f2 with
      | zero => omega
      | succ m =>
        unfold ingestLoop
        simp only [getline]
        exact ih m _ _ (by omega) (by omega)

theorem acceptedAt_le (rows : List Str) (z : Str) (h : Nat) :
    acceptedAt rows z h ≤ acceptedIn rows z := by
  unfold acceptedAt acceptedIn
  apply List.countP_mono_left
  intro l _ hl
  simp only [Bool.and_eq_true, decide_eq_true_eq] at hl ⊢
  rw [hl.2]; rfl

theorem acceptedIn_snoc (rows : List Str) (l z : Str) :
    acceptedIn (rows ++ [l]) z =
      acceptedIn rows z + if (parseLine l).map Prod.fst = some z then 1 else 0 := by
  unfold acceptedIn
  rw [List.countP_append]
  congr 1
  by_cases h : (parseLine l).map Prod.fst = some z <;> simp [List.countP_cons, h]

theorem acceptedAt_snoc (rows : List Str) (l z : Str) (h : Nat) :
    acceptedAt (rows ++ [l]) z h =
      acceptedAt rows z h + if parseLine l = some (z, (h : Int)) then 1 else 0 := by
  unfold acceptedAt
  rw [List.countP_append]
  congr 1
  by_cases hp : parseLine l = some (z, (h : Int))
  · have hne : l.isEmpty = false := by
      cases l with
      | nil => simp [parseLine, getline] at hp
      | cons c cs => rfl
    simp [List.countP_cons, hp, hne]
  · simp [List.countP_cons, hp]

theorem set_range_map (n i : Nat) (g : Nat → Nat) :
    ((List.range n).map g).set i (((List.range n).map g).getD i 0 + 1) =
      (List.range n).map (fun h => g h + if h = i then 1 else 0) := by
  apply List.ext_getElem
  · simp
  · intro j h1 h2
    have hj : j < n := by simpa using h2
    simp only [List.getElem_set, List.getElem_map, List.getElem_range]
    by_cases hij : i = j
    · subst hij
      simp [List.getD_eq_getElem?_getD, hj]
    · have : ¬ j = i := fun e => hij e.symm
      simp [hij, this]

theorem counted_nil : Counted [] { zoneCounts := [], slotCountsByZone := [] } := by
  constructor <;> intro z <;> rfl

theorem counted_snoc (rows : List Str) (l : Str) (st : State) (hc : Counted rows st) :
    Counted (rows ++ [l]) (ingestRow st l) := by
  cases hp : parseLine l with
  | none =>
    rw [ingestRow_skip st l (Or.inr hp)]
    have e1 : ∀ z, acceptedIn (rows ++ [l]) z = acceptedIn rows z := by
      intro z; rw [acceptedIn_snoc, hp]; simp
    have e2 : ∀ z, acceptedAt (rows ++ [l]) z = acceptedAt rows z := by
      intro z; funext h; rw [acceptedAt_snoc, hp]; simp
    constructor
    · intro z; rw [e1]; exact hc.1 z
    · intro z; rw [e1, e2]; exact hc.2 z
  | some r =>
    obtain ⟨z0, h0⟩ := r
    obtain ⟨_, _, _, hh0, hh23⟩ := parseLine_accepts l z0 h0 hp
    rw [ingestRow_accept st l z0 h0 hp]
    have e1 : ∀ z, acceptedIn (rows ++ [l]) z = acceptedIn rows z + if z0 = z then 1 else 0 := by
      intro z; rw [acceptedIn_snoc, hp]; simp
    have e2 : ∀ z h, acceptedAt (rows ++ [l]) z h =
        acceptedAt rows z h + if (z0 = z ∧ h = h0.toNat) then 1 else 0 := by
      intro z h
      rw [acceptedAt_snoc, hp]
      congr 1
      have : (some (z0, h0) = some (z, (h : Int))) ↔ (z0 = z ∧ h = h0.toNat) := by
        simp only [Option.some.injEq, Prod.mk.injEq]
        constructor
        · rintro ⟨rfl, rfl⟩; exact ⟨rfl, by simp⟩
        · rintro ⟨rfl, rfl⟩; exact ⟨rfl, by omega⟩
      simp only [this]
    have hold : ∀ z, (UMap.find st.slotCountsByZone z).getD zeroSlots =
        (List.range 24).map (acceptedAt rows z) := by
      intro z
      rw [hc.2 z]
      split
      · rename_i h0'
        have : acceptedAt rows z = fun _ => 0 := by
          funext h
          have := acceptedAt_le rows z h
          omega
        rw [this]; rfl
      · rfl
    have holdz : ∀ z, (UMap.find st.zoneCounts z).getD 0 = acceptedIn rows z := by
      intro z
      rw [hc.1 z]
      split
      · rename_i h0'; simp [h0']
      · rfl
    constructor
    · intro z
      simp only [find_update]
      by_cases hz : z = z0
      · subst hz
        rw [if_pos rfl, e1, if_pos rfl, holdz, if_neg (by omega)]
      · have hz' : ¬ z0 = z := fun e => hz e.symm
        rw [if_neg hz, e1, if_neg hz', Nat.add_zero]
        exact hc.1 z
    · intro z
      simp only [find_update]
      by_cases hz : z = z0
      · subst hz
        rw [if_pos rfl, e1, if_pos rfl, hold, if_neg (by omega)]
        congr 1
        unfold bumpSlot
        rw [set_range_map]
        congr 1
        funext h
        rw [e2]
        simp
      · have hz' : ¬ z0 = z := fun e => hz e.symm
        rw [if_neg hz, e1, if_neg hz', Nat.add_zero]
        have : acceptedAt (rows ++ [l]) z = acceptedAt rows z := by
          funext h; rw [e2]; simp [hz']
        rw [this]
        exact hc.2 z

theorem counted_foldl (rows : List Str) :
    Counted rows (rows.foldl ingestRow { zoneCounts := [], slotCountsByZone := [] }) := by
  induction rows using List.reverseRecOn with
  | nil => exact counted_nil
  | append_singleton l a ih =>
    rw [List.foldl_append]
    exact counted_snoc l a _ ih

theorem map_getD_range (arr : List Nat) (n : Nat) (h : arr.length = n) :
    (List.range n).map (fun i => arr.getD i 0) = arr := by
  apply List.ext_getElem
  · simp [h]
  · intro j h1 h2
    simp [List.getD_eq_getElem?_getD, h2]

/-! ## Orders: lemmas -/

theorem strCompare_cons (a b : Byte) (as bs : Str) :
    strCompare (a :: as) (b :: bs) =
      if a < b then -1 else if b < a then 1 else strCompare as bs := by
  unfold strCompare
  simp only [traitsCompare, List.length_cons, Nat.add_lt_add_iff_right]
  by_cases h1 : a < b
  · simp [h1]
  · by_cases h2 : b < a
    · simp [h1, h2]
    · simp [h1, h2]

theorem strLt_iff_lex (a b : Str) : strLt a b = true ↔ List.Lex (· < ·) a b := by
  unfold strLt
  rw [decide_eq_true_eq]
  induction a generalizing b with
  | nil =>
    cases b with
    | nil => simp [strCompare, traitsCompare]
    | cons b bs => simp [strCompare, traitsCompare, List.Lex.nil]
  | cons a as ih =>
    cases b with
    | nil => simp [strCompare, traitsCompare]
    | cons b bs =>
      rw [strCompare_cons]
      by_cases h1 : a < b
      · simp [h1, List.Lex.rel h1]
      · by_cases h2 : b < a
        · simp only [h1, h2, if_false, if_true]
          constructor
          · intro h; omega
          · intro h
            cases h with
            | cons h => exact absurd h2 (lt_irrefl _)
            | rel h => exact absurd h h1
        · have e : a = b := le_antisymm (not_lt.1 h2) (not_lt.1 h1)
          subst e
          simp only [h1, if_false, ih bs]
          exact (List.Lex.cons_iff).symm

theorem lex_irrefl (a : Str) : ¬ List.Lex (· < ·) a a :=
  irrefl_of (List.Lex (· < ·)) a

theorem lex_trans (a b c : Str) (h1 : List.Lex (· < ·) a b) (h2 : List.Lex (· < ·) b c) :
    List.Lex (· < ·) a c :=
  IsTrans.trans a b c h1 h2

theorem lex_total (a b : Str) (h1 : ¬ List.Lex (· < ·) a b) (h2 : ¬ List.Lex (· < ·) b a) :
    a = b := by
  rcases (List.Lex.isTrichotomous (fun x y : Byte => x < y)).trichotomous a b with h | h | h
  · exact absurd h h1
  · exact h
  · exact absurd h h2

theorem cmpZone_eq_zoneBefore (a b : ZoneCount) : cmpZone a b = zoneBefore a b := by
  unfold cmpZone zoneBefore
  by_cases hc : a.count = b.count
  · have hlt : ¬ b.count < a.count := by omega
    simp only [hc, ne_eq, not_true_eq_false, if_false, lt_irrefl, false_or, true_and]
    rw [Bool.eq_iff_iff, strLt_iff_lex, decide_eq_true_eq]
  · simp only [ne_eq, hc, not_false_eq_true, if_true, false_and, or_false, gt_iff_lt]

theorem cmpSlot_eq_slotBefore (a b : SlotCount) : cmpSlot a b = slotBefore a b := by
  unfold cmpSlot slotBefore
  by_cases hc : a.count = b.count
  · simp only [hc, ne_eq, not_true_eq_false, if_false, lt_irrefl, false_or, true_and]
    by_cases hz : a.zone = b.zone
    · have := lex_irrefl b.zone
      simp only [hz, not_true_eq_false, if_false, this, false_or, true_and]
    · simp only [hz, not_false_eq_true, if_true, false_and, or_false]
      rw [Bool.eq_iff_iff, strLt_iff_lex, decide_eq_true_eq]
  · simp only [ne_eq, hc, not_false_eq_true, if_true, false_and, or_false, gt_iff_lt]

theorem zoneBefore_strictTotal : StrictTotal zoneBefore := by
  refine ⟨?_, ?_, ?_⟩
  · intro a
    have := lex_irrefl a.zone
    simp [zoneBefore, this]
  · intro a b c h1 h2
    simp only [zoneBefore, decide_eq_true_eq] at h1 h2 ⊢
    rcases h1 with h1 | ⟨e1, l1⟩ <;> rcases h2 with h2 | ⟨e2, l2⟩
    · left; omega
    · left; omega
    · left; omega
    · right; exact ⟨e1.trans e2, lex_trans _ _ _ l1 l2⟩
  · intro a b h1 h2
    simp only [zoneBefore, decide_eq_false_iff_not, not_or, not_and] at h1 h2
    have hc : a.count = b.count := by omega
    have hz : a.zone = b.zone := lex_total _ _ (h1.2 hc) (h2.2 hc.symm)
    cases a; cases b; simp_all

theorem slotBefore_strictTotal : StrictTotal slotBefore := by
  refine ⟨?_, ?_, ?_⟩
  · intro a
    have := lex_irrefl a.zone
    simp [slotBefore, this]
  · intro a b c h1 h2
    simp only [slotBefore, decide_eq_true_eq] at h1 h2 ⊢
    rcases h1 with h1 | ⟨e1, l1⟩ <;> rcases h2 with h2 | ⟨e2, l2⟩
    · left; omega
    · left; omega
    · left; omega
    · right
      refine ⟨e1.trans e2, ?_⟩
      rcases l1 with l1 | ⟨z1, t1⟩ <;> rcases l2 with l2 | ⟨z2, t2⟩
      · left; exact lex_trans _ _ _ l1 l2
      · left; rw [← z2]; exact l1
      · left; rw [z1]; exact l2
      · right; exact ⟨z1.trans z2, by omega⟩
  · intro a b h1 h2
    simp only [slotBefore, decide_eq_false_iff_not, not_or, not_and] at h1 h2
    have hc : a.count = b.count := by omega
    have hz : a.zone = b.zone := lex_total _ _ (h1.2 hc).1 (h2.2 hc.symm).1
    have hh1 := (h1.2 hc).2 hz
    have hh2 := (h2.2 hc.symm).2 hz.symm
    have hh : a.hour = b.hour := by omega
    cases a; cases b; simp_all

theorem cmpZone_strictTotal : StrictTotal cmpZone := by
  have : cmpZone = zoneBefore := by funext a b; exact cmpZone_eq_zoneBefore a b
  rw [this]; exact zoneBefore_strictTotal

theorem cmpSlot_strictTotal : StrictTotal cmpSlot := by
  have : cmpSlot = slotBefore := by funext a b; exact cmpSlot_eq_slotBefore a b
  rw [this]; exact slotBefore_strictTotal

theorem strictTotal_strictWeak {α : Type} (cmp : α → α → Bool) (h : StrictTotal cmp) :
    StrictWeak cmp := by
  obtain ⟨hi, ht, htot⟩ := h
  refine ⟨hi, ht, ?_⟩
  intro a b c h1 h2
  cases hac : cmp a c with
  | false => rfl
  | true =>
    cases hba : cmp b a with
    | false =>
      have e := htot a b h1 hba
      subst e
      rw [hac] at h2; cases h2
    | true =>
      have := ht b a c hba hac
      rw [this] at h2; cases h2

theorem strictWeak_asymm {α : Type} (cmp : α → α → Bool) (h : StrictWeak cmp) (a b : α)
    (hab : cmp a b = true) : cmp b a = false := by
  cases hba : cmp b a with
  | false => rfl
  | true =>
    have := h.2.1 a b a hab hba
    rw [h.1 a] at this; cases this

/-! ## The library routines: lemmas -/

theorem sortedBy_unique {α : Type} (cmp : α → α → Bool) (h : StrictTotal cmp)
    (l1 l2 : List α) (hp : l1.Perm l2) (h1 : SortedBy cmp l1) (h2 : SortedBy cmp l2) :
    l1 = l2 := by
  haveI : IsAntisymm α (fun a b => cmp b a = false) := ⟨fun a b hab hba => h.2.2 a b hba hab⟩
  exact List.eq_of_perm_of_sorted hp h1 h2

theorem insertBy_perm {α : Type} (cmp : α → α → Bool) (a : α) (l : List α) :
    (insertBy cmp a l).Perm (a :: l) := by
  induction l with
  | nil => exact List.Perm.refl _
  | cons b l ih =>
    unfold insertBy
    split
    · exact (List.Perm.cons b ih).trans (List.Perm.swap a b l)
    · exact List.Perm.refl _

theorem isort_perm {α : Type} (cmp : α → α → Bool) (l : List α) :
    (isort cmp l).Perm l := by
  induction l with
  | nil => exact List.Perm.refl _
  | cons a l ih =>
    unfold isort
    exact (insertBy_perm cmp a _).trans (List.Perm.cons a ih)

theorem insertBy_sorted {α : Type} (cmp : α → α → Bool) (h : StrictWeak cmp) (a : α)
    (l : List α) (hs : SortedBy cmp l) : SortedBy cmp (insertBy cmp a l) := by
  induction l with
  | nil => simp [insertBy, SortedBy]
  | cons b l ih =>
    unfold SortedBy at hs ih ⊢
    rw [List.pairwise_cons] at hs
    unfold insertBy
    by_cases hba : cmp b a = true
    · rw [if_pos hba, List.pairwise_cons]
      refine ⟨?_, ih hs.2⟩
      intro x hx
      rcases List.mem_cons.1 ((insertBy_perm cmp a l).subset hx) with e | e
      · subst e; exact strictWeak_asymm cmp h b x hba
      · exact hs.1 x e
    · rw [if_neg hba]
      have hba' : cmp b a = false := by simpa using hba
      rw [List.pairwise_cons, List.pairwise_cons]
      refine ⟨?_, hs⟩
      intro x hx
      rcases List.mem_cons.1 hx with e | e
      · subst e; exact hba'
      · exact h.2.2 x b a (hs.1 x e) hba'

theorem isort_sorted {α : Type} (cmp : α → α → Bool) (h : StrictWeak cmp) (l : List α) :
    SortedBy cmp (isort cmp l) := by
  induction l with
  | nil => simp [isort, SortedBy]
  | cons a l ih =>
    unfold isort
    exact insertBy_sorted cmp h a _ ih

theorem refAlgorithms_conforms : refAlgorithms.Conforms := by
  intro α cmp h l
  have hs := isort_sorted cmp h l
  have hp := isort_perm cmp l
  refine ⟨⟨hp, hs⟩, ?_⟩
  intro k hk
  have hk' : k ≤ (isort cmp l).length := by rw [hp.length_eq]; exact hk
  have htake : (List.take k (isort cmp l) ++ (List.drop k (isort cmp l)).reverse).take k =
      List.take k (isort cmp l) := by
    rw [List.take_append_of_le_length (by rw [List.length_take]; omega)]
    rw [List.take_take, min_self]
  have hdrop : (List.take k (isort cmp l) ++ (List.drop k (isort cmp l)).reverse).drop k =
      (List.drop k (isort cmp l)).reverse := by
    have hl : (List.take k (isort cmp l)).length = k := by rw [List.length_take]; omega
    exact List.drop_left' hl
  show ((List.take k (isort cmp l) ++ (List.drop k (isort cmp l)).reverse).Perm l) ∧
    SortedBy cmp ((List.take k (isort cmp l) ++ (List.drop k (isort cmp l)).reverse).take k) ∧
    ∀ a ∈ (List.take k (isort cmp l) ++ (List.drop k (isort cmp l)).reverse).take k,
      ∀ b ∈ (List.take k (isort cmp l) ++ (List.drop k (isort cmp l)).reverse).drop k,
        cmp b a = false
  rw [htake, hdrop]
  have hsplit : SortedBy cmp (List.take k (isort cmp l) ++ List.drop k (isort cmp l)) := by
    rw [List.take_append_drop]; exact hs
  unfold SortedBy at hsplit
  rw [List.pairwise_append] at hsplit
  refine ⟨?_, hsplit.1, ?_⟩
  · refine (List.Perm.append_left _ (List.reverse_perm _)).trans ?_
    rw [List.take_append_drop]; exact hp
  · intro a ha b hb
    exact hsplit.2.2 a ha b (List.mem_reverse.1 hb)

theorem conforms_sort_eq {α : Type} (L : StdAlgorithms) (hL : L.Conforms)
    (cmp : α → α → Bool) (h : StrictTotal cmp) (l : List α) :
    L.stdSort cmp l = isort cmp l := by
  have hw := strictTotal_strictWeak cmp h
  obtain ⟨⟨hp, hs⟩, _⟩ := hL α cmp hw l
  exact sortedBy_unique cmp h _ _ (hp.trans (isort_perm cmp l).symm) hs (isort_sorted cmp hw l)

theorem conforms_partial_take {α : Type} (L : StdAlgorithms) (hL : L.Conforms)
    (cmp : α → α → Bool) (h : StrictTotal cmp) (l : List α) (k : Nat) (hk : k ≤ l.length) :
    (L.stdPartialSort cmp k l).take k = (isort cmp l).take k := by
  have hw := strictTotal_strictWeak cmp h
  obtain ⟨_, hpart⟩ := hL α cmp hw l
  obtain ⟨hp, hs, hcross⟩ := hpart k hk
  have hlen : ((L.stdPartialSort cmp k l).take k).length = k := by
    rw [List.length_take, hp.length_eq]; omega
  have hsorted : SortedBy cmp ((L.stdPartialSort cmp k l).take k ++
      isort cmp ((L.stdPartialSort cmp k l).drop k)) := by
    unfold SortedBy
    rw [List.pairwise_append]
    refine ⟨hs, isort_sorted cmp hw _, ?_⟩
    intro a ha b hb
    exact hcross a ha b ((isort_perm cmp _).subset hb)
  have hperm : ((L.stdPartialSort cmp k l).take k ++
      isort cmp ((L.stdPartialSort cmp k l).drop k)).Perm (isort cmp l) := by
    refine (List.Perm.append_left _ (isort_perm cmp _)).trans ?_
    rw [List.take_append_drop]
    exact hp.trans (isort_perm cmp l).symm
  have e := sortedBy_unique cmp h _ _ hperm hsorted (isort_sorted cmp hw l)
  rw [← e, List.take_left' hlen]

/-- The selection step shared by the two reports. -/
theorem topk_eq {α : Type} (L : StdAlgorithms) (hL : L.Conforms) (cmp : α → α → Bool)
    (h : StrictTotal cmp) (result : List α) (k : Int) :
    (if (if k < 0 then 0 else k).toNat < result.length then
        (L.stdPartialSort cmp (if k < 0 then 0 else k).toNat result).take
          (if k < 0 then 0 else k).toNat
      else L.stdSort cmp result) =
      (isort cmp result).take (min (max k 0).toNat result.length) := by
  have hk : (if k < 0 then 0 else k) = max k 0 := by
    split
    · rw [max_eq_right (by omega)]
    · rw [max_eq_left (by omega)]
  rw [hk]
  by_cases hlt : (max k 0).toNat < result.length
  · rw [if_pos hlt, min_eq_left (by omega)]
    exact conforms_partial_take L hL cmp h result _ (by omega)
  · rw [if_neg hlt, min_eq_right (by omega), conforms_sort_eq L hL cmp h]
    rw [List.take_of_length_le]
    rw [(isort_perm cmp result).length_eq]

/-! ## The reports: lemmas -/

theorem find_of_mem_nodup {V : Type} (m : UMap V) (hn : m.keys.Nodup) (p : Str × V)
    (hp : p ∈ m) : UMap.find m p.1 = some p.2 := by
  induction m with
  | nil => cases hp
  | cons q rest ih =>
    obtain ⟨k, v⟩ := q
    simp only [UMap.keys, List.map_cons, List.nodup_cons] at hn
    rcases List.mem_cons.1 hp with e | e
    · subst e; simp [UMap.find]
    · have hk : k ≠ p.1 := by
        intro e'
        apply hn.1
        rw [e']
        exact List.mem_map_of_mem Prod.fst e
      simp only [UMap.find, hk, if_false]
      exact ih hn.2 e

theorem zone_entries_eq (st : State) (hn : st.zoneCounts.keys.Nodup) :
    st.zoneCounts.map (fun p => ZoneCount.mk p.1 p.2) = allZones st := by
  unfold allZones UMap.keys
  rw [List.map_map]
  apply List.map_congr_left
  intro p hp
  simp only [Function.comp, State.zoneCount, find_of_mem_nodup _ hn p hp, Option.getD_some]

theorem filterMap_ite {α β : Type} (c : α → Bool) (f : α → β) (l : List α) :
    l.filterMap (fun a => if c a = true then some (f a) else none) = (l.filter c).map f := by
  induction l with
  | nil => rfl
  | cons a l ih =>
    cases h : c a <;> simp [List.filterMap_cons, List.filter_cons, h, ih]

theorem busySlots_eq (st : State) (hn : st.slotCountsByZone.keys.Nodup) :
    busySlots st.slotCountsByZone = allSlots st := by
  unfold busySlots allSlots UMap.keys
  simp only [List.flatMap, List.map_map]
  congr 1
  apply List.map_congr_left
  intro p hp
  have hf : ∀ h, st.slotCount p.1 h = p.2.getD h 0 := by
    intro h
    simp only [State.slotCount, find_of_mem_nodup _ hn p hp, Option.getD_some]
  simp only [Function.comp, hf]
  rw [← filterMap_ite]
  apply List.filterMap_congr
  intro h _
  simp

theorem allZones_zones (st : State) : (allZones st).map ZoneCount.zone = st.zoneCounts.keys := by
  unfold allZones
  rw [List.map_map]
  exact List.map_id _

theorem allZones_length (st : State) : (allZones st).length = st.zoneCounts.length := by
  simp [allZones, UMap.keys]

theorem mem_allSlots (st : State) (e : SlotCount) :
    e ∈ allSlots st ↔
      e.zone ∈ st.slotCountsByZone.keys ∧
      ∃ h : Nat, h < 24 ∧ e.hour = h ∧ e.count = st.slotCount e.zone h ∧ 0 < e.count := by
  unfold allSlots
  simp only [List.mem_flatMap, List.mem_map, List.mem_filter, List.mem_range, decide_eq_true_eq]
  constructor
  · rintro ⟨z, hz, h, ⟨hh, hpos⟩, rfl⟩
    exact ⟨hz, h, hh, rfl, rfl, hpos⟩
  · rintro ⟨hz, h, hh, e1, e2, hpos⟩
    refine ⟨e.zone, hz, h, ⟨hh, by rw [← e2]; exact hpos⟩, ?_⟩
    cases e
    simp_all

theorem allSlots_nodup (st : State) (hn : st.slotCountsByZone.keys.Nodup) :
    ((allSlots st).map (fun e => (e.zone, e.hour))).Nodup := by
  unfold allSlots
  rw [List.map_flatMap]
  rw [List.nodup_flatMap]
  constructor
  · intro z _
    rw [List.map_map]
    apply List.Nodup.map_on
    · intro x _ y _ hxy
      simpa using hxy
    · exact (List.nodup_range 24).filter _
  · refine List.Pairwise.imp ?_ hn
    intro a b hab
    simp only [Function.onFun]
    rw [List.disjoint_left]
    intro x hx hx'
    simp only [List.mem_map] at hx hx'
    obtain ⟨_, ⟨_, _, rfl⟩, rfl⟩ := hx
    obtain ⟨_, ⟨_, _, rfl⟩, e⟩ := hx'
    simp only [Prod.mk.injEq] at e
    exact hab e.1.symm

theorem isort_pairwise_strict {α : Type} (cmp : α → α → Bool) (h : StrictTotal cmp)
    (l : List α) (hn : l.Nodup) : (isort cmp l).Pairwise (fun a b => cmp a b = true) := by
  have hs := isort_sorted cmp (strictTotal_strictWeak cmp h) l
  have hn' : (isort cmp l).Nodup := (isort_perm cmp l).nodup_iff.2 hn
  unfold SortedBy at hs
  unfold List.Nodup at hn'
  refine List.Pairwise.imp ?_ (hs.and hn')
  intro a b hab
  cases hc : cmp a b with
  | true => rfl
  | false => exact absurd (h.2.2 a b hc hab.1) hab.2

theorem sort_nil {α : Type} (L : StdAlgorithms) (hL : L.Conforms) (cmp : α → α → Bool)
    (h : StrictTotal cmp) : L.stdSort cmp [] = [] :=
  List.Perm.eq_nil (hL α cmp (strictTotal_strictWeak cmp h) []).1.1

theorem topZones_eq_take (L : StdAlgorithms) (hL : L.Conforms) (st : State)
    (hn : st.zoneCounts.keys.Nodup) (k : Int) :
    topZones L st k = (rankedZones st).take (min (max k 0).toNat st.zoneCounts.length) := by
  have hc : cmpZone = zoneBefore := by funext a b; exact cmpZone_eq_zoneBefore a b
  unfold topZones
  dsimp only
  rw [topk_eq L hL cmpZone cmpZone_strictTotal, zone_entries_eq st hn, hc, allZones_length]
  rfl

theorem allSlots_entries_nodup (st : State) (hn : st.slotCountsByZone.keys.Nodup) :
    (allSlots st).Nodup :=
  List.Nodup.of_map _ (allSlots_nodup st hn)

theorem topBusySlots_eq_take (L : StdAlgorithms) (hL : L.Conforms) (st : State)
    (hn : st.slotCountsByZone.keys.Nodup) (k : Int) :
    topBusySlots L st k = (rankedSlots st).take (min (max k 0).toNat (allSlots st).length) := by
  have hc : cmpSlot = slotBefore := by funext a b; exact cmpSlot_eq_slotBefore a b
  unfold topBusySlots
  dsimp only
  rw [topk_eq L hL cmpSlot cmpSlot_strictTotal, busySlots_eq st hn, hc]
  rfl

theorem ingestRow_keys_nodup (st : State) (line : Str)
    (h : st.zoneCounts.keys.Nodup ∧ st.slotCountsByZone.keys.Nodup) :
    (ingestRow st line).zoneCounts.keys.Nodup ∧
      (ingestRow st line).slotCountsByZone.keys.Nodup := by
  rcases ingestRow_cases st line with e | ⟨z, hr, _, _, _, e⟩
  · rw [e]; exact h
  · rw [e]
    exact ⟨nodup_keys_update _ _ z _ h.1, nodup_keys_update _ _ z _ h.2⟩

/-- Every state a load produces has one entry per key in both maps. -/
theorem ingestFile_keys_nodup (fin : Option Stream) (st : State) :
    (ingestFile fin st).zoneCounts.keys.Nodup ∧
      (ingestFile fin st).slotCountsByZone.keys.Nodup :=
  ingestFile_invariant
    (fun s => s.zoneCounts.keys.Nodup ∧ s.slotCountsByZone.keys.Nodup)
    ⟨List.nodup_nil, List.nodup_nil⟩ ingestRow_keys_nodup fin st

/-! ## The reports: further lemmas -/

theorem zoneBefore_order (a b : ZoneCount) (h : zoneBefore a b = true) :
    b.count ≤ a.count ∧ (a.count = b.count → List.Lex (· < ·) a.zone b.zone) := by
  simp only [zoneBefore, decide_eq_true_eq] at h
  rcases h with h | ⟨e, l⟩
  · exact ⟨by omega, fun e => by omega⟩
  · exact ⟨by omega, fun _ => l⟩

theorem rankedZones_pairwise (st : State) (hn : st.zoneCounts.keys.Nodup) :
    (rankedZones st).Pairwise (fun a b => zoneBefore a b = true) := by
  have hnd : (allZones st).Nodup := by
    apply List.Nodup.of_map ZoneCount.zone
    rw [allZones_zones]; exact hn
  exact isort_pairwise_strict zoneBefore zoneBefore_strictTotal _ hnd

theorem topk_neg {α : Type} (L : StdAlgorithms) (hL : L.Conforms) (cmp : α → α → Bool)
    (h : StrictTotal cmp) (result : List α) (k : Int) (hk : k ≤ 0) :
    (if (if k < 0 then 0 else k).toNat < result.length then
        (L.stdPartialSort cmp (if k < 0 then 0 else k).toNat result).take
          (if k < 0 then 0 else k).toNat
      else L.stdSort cmp result) = [] := by
  rw [topk_eq L hL cmp h]
  have : (max k 0).toNat = 0 := by
    rw [max_eq_right hk]; rfl
  rw [this, Nat.zero_min, List.take_zero]

theorem mem_topBusySlots (L : StdAlgorithms) (hL : L.Conforms) (st : State)
    (hn : st.slotCountsByZone.keys.Nodup) (k : Int) (e : SlotCount)
    (he : e ∈ topBusySlots L st k) : e ∈ allSlots st := by
  rw [topBusySlots_eq_take L hL st hn k] at he
  exact (isort_perm slotBefore _).subset (List.mem_of_mem_take he)

/-! ## The line parser: further lemmas -/

theorem fields_cons_ne (c : Byte) (cs : Str) (hc : c ≠ comma) :
    fields (c :: cs) = (c :: (fields cs).headD []) :: (fields cs).tail := by
  simp only [fields, hc, if_false]
  cases hf : fields cs with
  | nil => exact absurd hf (fields_ne_nil cs)
  | cons f fs => rfl

theorem fields_append_comma (l s : Str) :
    fields (l ++ comma :: s) = fields l ++ fields s := by
  induction l with
  | nil => simp [fields]
  | cons c cs ih =>
    by_cases hc : c = comma
    · simp [fields, hc, ih]
    · rw [List.cons_append, fields_cons_ne c _ hc, fields_cons_ne c _ hc, ih]
      cases hf : fields cs with
      | nil => exact absurd hf (fields_ne_nil cs)
      | cons f fs => rfl

theorem parseFields_append (fs extra : List Str) (h : 4 ≤ fs.length) :
    parseFields (fs ++ extra) = parseFields fs := by
  rcases fs with _ | ⟨f0, _ | ⟨f1, _ | ⟨f2, _ | ⟨f3, tl⟩⟩⟩⟩ <;>
    simp only [List.length_cons, List.length_nil] at h <;> first | omega | rfl

theorem parseFields_eq (fs : List Str) (h : 4 ≤ fs.length) :
    parseFields fs =
      if (fs.getD 1 []).isEmpty then none
      else (parseHourFast (fs.getD 3 [])).map (fun hr => (fs.getD 1 [], hr)) := by
  rcases fs with _ | ⟨f0, _ | ⟨f1, _ | ⟨f2, _ | ⟨f3, tl⟩⟩⟩⟩ <;>
    simp only [List.length_cons, List.length_nil] at h <;> first | omega | rfl

theorem parseLine_eq_of_fields (line : Str) (h : 3 ≤ line.count comma) :
    parseLine line =
      if (field 1 line).isEmpty then none
      else (parseHourFast (field 3 line)).map (fun hr => (field 1 line, hr)) := by
  rw [parseLine_eq_parseFields]
  exact parseFields_eq _ (by rw [fields_length]; omega)

/-- The hour parser looks at the length of the text and at the bytes at
offsets 11 and 12 only. -/
theorem parseHourFast_congr (d1 d2 : Str) (h1 : 13 ≤ d1.length) (h2 : 13 ≤ d2.length)
    (e11 : d1.getD 11 0 = d2.getD 11 0) (e12 : d1.getD 12 0 = d2.getD 12 0) :
    parseHourFast d1 = parseHourFast d2 := by
  unfold parseHourFast
  rw [if_neg (show ¬ d1.length < 13 by omega), if_neg (show ¬ d2.length < 13 by omega)]
  simp only [e11, e12]

theorem parseHourFast_short (d : Str) (h : d.length < 13) : parseHourFast d = none := by
  unfold parseHourFast
  rw [if_pos h]

/-! ## Determinism of the reports: lemmas -/

theorem isort_of_perm {α : Type} (cmp : α → α → Bool) (h : StrictTotal cmp) (l1 l2 : List α)
    (hp : l1.Perm l2) : isort cmp l1 = isort cmp l2 := by
  have hw := strictTotal_strictWeak cmp h
  exact sortedBy_unique cmp h _ _
    (((isort_perm cmp l1).trans hp).trans (isort_perm cmp l2).symm)
    (isort_sorted cmp hw l1) (isort_sorted cmp hw l2)

theorem topZones_entries (L : StdAlgorithms) (hL : L.Conforms) (st : State) (k : Int) :
    topZones L st k =
      (isort cmpZone (st.zoneCounts.map (fun p => ZoneCount.mk p.1 p.2))).take
        (min (max k 0).toNat st.zoneCounts.length) := by
  unfold topZones
  dsimp only
  rw [topk_eq L hL cmpZone cmpZone_strictTotal, List.length_map]

theorem topBusySlots_entries (L : StdAlgorithms) (hL : L.Conforms) (st : State) (k : Int) :
    topBusySlots L st k =
      (isort cmpSlot (busySlots st.slotCountsByZone)).take
        (min (max k 0).toNat (busySlots st.slotCountsByZone).length) := by
  unfold topBusySlots
  dsimp only
  rw [topk_eq L hL cmpSlot cmpSlot_strictTotal]

theorem topZones_of_perm (L1 L2 : StdAlgorithms) (h1 : L1.Conforms) (h2 : L2.Conforms)
    (st1 st2 : State) (hz : st1.zoneCounts.Perm st2.zoneCounts) (k : Int) :
    topZones L1 st1 k = topZones L2 st2 k := by
  rw [topZones_entries L1 h1, topZones_entries L2 h2, hz.length_eq,
    isort_of_perm cmpZone cmpZone_strictTotal _ _ (hz.map _)]

theorem topBusySlots_of_perm (L1 L2 : StdAlgorithms) (h1 : L1.Conforms) (h2 : L2.Conforms)
    (st1 st2 : State) (hs : st1.slotCountsByZone.Perm st2.slotCountsByZone) (k : Int) :
    topBusySlots L1 st1 k = topBusySlots L2 st2 k := by
  have hb : (busySlots st1.slotCountsByZone).Perm (busySlots st2.slotCountsByZone) :=
    List.Perm.flatMap_right _ hs
  rw [topBusySlots_entries L1 h1, topBusySlots_entries L2 h2, hb.length_eq,
    isort_of_perm cmpSlot cmpSlot_strictTotal _ _ hb]

theorem perm_of_same_find {V : Type} (m1 m2 : UMap V) (n1 : m1.keys.Nodup)
    (n2 : m2.keys.Nodup) (h : ∀ z, UMap.find m1 z = UMap.find m2 z) : m1.Perm m2 := by
  rw [List.perm_ext_iff_of_nodup (List.Nodup.of_map _ n1) (List.Nodup.of_map _ n2)]
  intro p
  constructor
  · intro hp
    have := find_of_mem_nodup m1 n1 p hp
    rw [h] at this
    exact find_mem m2 p.1 p.2 this
  · intro hp
    have := find_of_mem_nodup m2 n2 p hp
    rw [← h] at this
    exact find_mem m1 p.1 p.2 this

theorem acceptedIn_perm (r1 r2 : List Str) (hp : r1.Perm r2) (z : Str) :
    acceptedIn r1 z = acceptedIn r2 z :=
  hp.countP_eq _

theorem acceptedAt_perm (r1 r2 : List Str) (hp : r1.Perm r2) (z : Str) :
    acceptedAt r1 z = acceptedAt r2 z := by
  funext h
  exact hp.countP_eq _

theorem counted_perm (r1 r2 : List Str) (hp : r1.Perm r2) (s1 s2 : State)
    (c1 : Counted r1 s1) (c2 : Counted r2 s2) : SameMaps s1 s2 := by
  constructor
  · intro z
    rw [c1.1 z, c2.1 z, acceptedIn_perm r1 r2 hp z]
  · intro z
    rw [c1.2 z, c2.2 z, acceptedIn_perm r1 r2 hp z, acceptedAt_perm r1 r2 hp z]

/-! ## Conservation of rows: lemmas -/

theorem sum_update {V : Type} (mu : V → Nat) (dflt : V) (f : V → V) (key : Str) (m : UMap V)
    (hd : mu (f dflt) = 1) (hf : ∀ p ∈ m, mu (f p.2) = mu p.2 + 1) :
    ((UMap.update dflt f key m).map (fun p => mu p.2)).sum =
      (m.map (fun p => mu p.2)).sum + 1 := by
  induction m with
  | nil => simp [UMap.update, hd]
  | cons q rest ih =>
    obtain ⟨k, v⟩ := q
    by_cases hk : k = key
    · have := hf (k, v) (List.mem_cons_self _ _)
      simp only [UMap.update, hk, if_true, List.map_cons, List.sum_cons] at this ⊢
      omega
    · have := ih (fun p hp => hf p (List.mem_cons_of_mem _ hp))
      simp only [UMap.update, hk, if_false, List.map_cons, List.sum_cons]
      omega

theorem ingestRow_balanced (st : State) (line : Str) (hb : Balanced st) :
    Balanced (ingestRow st line) := by
  obtain ⟨hs, h1, hsum⟩ := hb
  refine ⟨ingestRow_sized st line hs, ?_, ?_⟩
  · rcases ingestRow_cases st line with e | ⟨z, h, _, _, _, e⟩
    · rw [e]; exact h1
    · rw [e]
      exact mem_update 0 (· + 1) z st.zoneCounts (fun v => 1 ≤ v) (le_refl _)
        (fun p _ _ => Nat.le_add_left 1 p.2) h1
  · rcases ingestRow_cases st line with e | ⟨z, h, _, h0, h23, e⟩
    · rw [e]; exact hsum
    · rw [e]
      have e1 := sum_update (fun v : Nat => v) 0 (· + 1) z st.zoneCounts rfl (fun p _ => rfl)
      have e2 := sum_update List.sum zeroSlots (bumpSlot h) z st.slotCountsByZone
        (bumpSlot_sum h zeroSlots h0 h23 rfl)
        (fun p hp => bumpSlot_sum h p.2 h0 h23 (hs p hp))
      show (List.map Prod.snd (UMap.update 0 (· + 1) z st.zoneCounts)).sum =
        (List.map (fun p => p.2.sum) (UMap.update zeroSlots (bumpSlot h) z st.slotCountsByZone)).sum
      have e1' : (List.map Prod.snd (UMap.update 0 (· + 1) z st.zoneCounts)).sum =
          (List.map Prod.snd st.zoneCounts).sum + 1 := e1
      rw [e1', e2, hsum]

theorem ingestFile_balanced (fin : Option Stream) (st : State) :
    Balanced (ingestFile fin st) :=
  ingestFile_invariant Balanced
    ⟨fun p hp => (by cases hp), fun p hp => (by cases hp), rfl⟩ ingestRow_balanced fin st

theorem total_ingestRow (st : State) (line : Str) :
    ((ingestRow st line).zoneCounts.map Prod.snd).sum =
      (st.zoneCounts.map Prod.snd).sum + if (parseLine line).isSome then 1 else 0 := by
  cases hp : parseLine line with
  | none => rw [ingestRow_skip st line (Or.inr hp)]; rfl
  | some r =>
    obtain ⟨z, h⟩ := r
    rw [ingestRow_accept st line z h hp]
    exact sum_update (fun v : Nat => v) 0 (· + 1) z st.zoneCounts rfl (fun p _ => rfl)

theorem total_foldl (rows : List Str) :
    ((rows.foldl ingestRow { zoneCounts := [], slotCountsByZone := [] }).zoneCounts.map
      Prod.snd).sum = acceptedCount rows := by
  induction rows using List.reverseRecOn with
  | nil => rfl
  | append_singleton l a ih =>
    rw [List.foldl_append, List.foldl_cons, List.foldl_nil, total_ingestRow, ih]
    unfold acceptedCount
    rw [List.countP_append]
    congr 1
    cases h : (parseLine a).isSome <;> simp [List.countP_cons, h]

theorem busySlots_eq_flatMap (m : UMap (List Nat)) : busySlots m = m.flatMap zoneSlots := rfl

theorem sum_filter_pos (g : Nat → Nat) (l : List Nat) :
    ((l.filter (fun h => decide (g h > 0))).map g).sum = (l.map g).sum := by
  induction l with
  | nil => rfl
  | cons a l ih =>
    by_cases h : g a > 0
    · simp [List.filter_cons, h, ih]
    · have : g a = 0 := by omega
      simp [List.filter_cons, h, ih, this]

theorem zoneSlots_eq (p : Str × List Nat) :
    zoneSlots p = ((List.range 24).filter (fun h => decide (p.2.getD h 0 > 0))).map
      (fun (h : Nat) => SlotCount.mk p.1 h (p.2.getD h 0)) := by
  unfold zoneSlots
  rw [← filterMap_ite]
  apply List.filterMap_congr
  intro h _
  simp

theorem zoneSlots_sum (p : Str × List Nat) (hl : p.2.length = 24) :
    ((zoneSlots p).map SlotCount.count).sum = p.2.sum := by
  rw [zoneSlots_eq, List.map_map]
  have : (SlotCount.count ∘ fun (h : Nat) => SlotCount.mk p.1 h (p.2.getD h 0)) =
      fun h => p.2.getD h 0 := rfl
  rw [this, sum_filter_pos (fun h => p.2.getD h 0), map_getD_range p.2 24 hl]

theorem zoneSlots_length (p : Str × List Nat) : (zoneSlots p).length ≤ 24 := by
  rw [zoneSlots_eq, List.length_map]
  exact (List.length_filter_le _ _).trans (by simp)

theorem zoneSlots_zone (p : Str × List Nat) (e : SlotCount) (he : e ∈ zoneSlots p) :
    e.zone = p.1 := by
  rw [zoneSlots_eq] at he
  simp only [List.mem_map] at he
  obtain ⟨_, _, rfl⟩ := he
  rfl

theorem busySlots_sum (m : UMap (List Nat)) (hs : ∀ p ∈ m, p.2.length = 24) :
    ((busySlots m).map SlotCount.count).sum = (m.map (fun p => p.2.sum)).sum := by
  rw [busySlots_eq_flatMap]
  induction m with
  | nil => rfl
  | cons p rest ih =>
    rw [List.flatMap_cons, List.map_append, List.sum_append,
      zoneSlots_sum p (hs p (List.mem_cons_self _ _)),
      ih (fun q hq => hs q (List.mem_cons_of_mem _ hq))]
    rfl

theorem busySlots_filter_none (m : UMap (List Nat)) (z : Str) (hz : z ∉ m.keys) :
    (busySlots m).filter (fun e => decide (e.zone = z)) = [] := by
  rw [List.filter_eq_nil_iff]
  intro e he
  rw [busySlots_eq_flatMap, List.mem_flatMap] at he
  obtain ⟨p, hp, hep⟩ := he
  have := zoneSlots_zone p e hep
  simp only [decide_eq_true_eq]
  intro hez
  apply hz
  rw [← hez, this]
  exact List.mem_map_of_mem Prod.fst hp

theorem busySlots_filter_zone (m : UMap (List Nat)) (hn : m.keys.Nodup) (p : Str × List Nat)
    (hp : p ∈ m) :
    (busySlots m).filter (fun e => decide (e.zone = p.1)) = zoneSlots p := by
  induction m with
  | nil => cases hp
  | cons q rest ih =>
    simp only [UMap.keys, List.map_cons, List.nodup_cons] at hn
    rw [busySlots_eq_flatMap, List.flatMap_cons, List.filter_append, ← busySlots_eq_flatMap]
    rcases List.mem_cons.1 hp with e | e
    · subst e
      rw [busySlots_filter_none rest p.1 hn.1, List.append_nil, List.filter_eq_self]
      intro e he
      simp [zoneSlots_zone p e he]
    · rw [ih hn.2 e]
      have hq : q.1 ≠ p.1 := by
        intro h
        apply hn.1
        rw [h]
        exact List.mem_map_of_mem Prod.fst e
      have : (zoneSlots q).filter (fun e => decide (e.zone = p.1)) = [] := by
        rw [List.filter_eq_nil_iff]
        intro x hx
        simp only [decide_eq_true_eq]
        rw [zoneSlots_zone q x hx]
        exact hq
      rw [this, List.nil_append]

theorem topZones_all (L : StdAlgorithms) (hL : L.Conforms) (st : State) (k : Int)
    (hk : (st.zoneCounts.length : Int) ≤ k) :
    (topZones L st k).Perm (st.zoneCounts.map (fun p => ZoneCount.mk p.1 p.2)) := by
  rw [topZones_entries L hL st k, min_eq_right (by omega),
    List.take_of_length_le (by rw [(isort_perm _ _).length_eq, List.length_map])]
  exact isort_perm _ _

theorem topBusySlots_all (L : StdAlgorithms) (hL : L.Conforms) (st : State) (k : Int)
    (hk : ((busySlots st.slotCountsByZone).length : Int) ≤ k) :
    (topBusySlots L st k).Perm (busySlots st.slotCountsByZone) := by
  rw [topBusySlots_entries L hL st k, min_eq_right (by omega),
    List.take_of_length_le (by rw [(isort_perm _ _).length_eq])]
  exact isort_perm _ _

theorem zone_entry_slots (st : State) (hc : Consistent st) (hn : st.zoneCounts.keys.Nodup)
    (p : Str × Nat) (hp : p ∈ st.zoneCounts) :
    ∃ arr, (p.1, arr) ∈ st.slotCountsByZone ∧ arr.length = 24 ∧ p.2 = arr.sum := by
  have hf := find_of_mem_nodup _ hn p hp
  rcases hc p.1 with ⟨e1, _⟩ | ⟨n, arr, e1, e2, hl, hs⟩
  · rw [e1] at hf; cases hf
  · rw [e1] at hf
    cases hf
    exact ⟨arr, find_mem _ _ _ e2, hl, hs⟩

set_option maxRecDepth 100000 in
/-- The state that the load of the example file of the specification leaves. -/
theorem example_file_state (eol : Bool) :
    ingestFile (some (fileBytes
        [ascii "TripID,PickupZoneID,DropoffZoneID,PickupDateTime,DistanceKm,FareAmount",
          ascii "T1,Z1,Z9,2023-05-01 08:15,3.2,10.5",
          ascii "T2,Z1,Z9,2023-05-01 08:45,2.0,9.0",
          ascii "T3,Z2,Z9,2023-05-01 23:59,1.0,5.0",
          ascii "T4,,Z9,2023-05-01 10:00,1.0,5.0"] eol))
        { zoneCounts := [], slotCountsByZone := [] } =
      { zoneCounts := [(ascii "Z1", 2), (ascii "Z2", 1)],
        slotCountsByZone := [(ascii "Z1", zeroSlots.set 8 2), (ascii "Z2", zeroSlots.set 23 1)] } := by
  cases eol <;> decide

/-! ## The claims -/

/-- Claim C1.  For a file that opens and consists of a first line `hdr` followed
by the data lines `rows` (with or without a newline after the last line),
after `ingestFile`, whatever the prior state: for every zone `z` and hour `h`
in `0..23`, `slotCounts[z][h]` is the number of data lines that are non-empty
and accepted by `parseLine` with `(z, h)`; `zoneCounts[z]` is the number of
data lines accepted with zone `z`; and `z` is a key of either map exactly when
at least one data line is accepted with zone `z`.  The first line never
contributes, whatever it holds. -/
theorem ingestFile_counts (hdr : Str) (rows : List Str) (eol : Bool) (prior : State)
    (hl : ∀ l ∈ hdr :: rows, IsLine l) :
    (∀ z h, h < 24 →
      (ingestFile (some (fileBytes (hdr :: rows) eol)) prior).slotCount z h =
        acceptedAt rows z h) ∧
    (∀ z, (ingestFile (some (fileBytes (hdr :: rows) eol)) prior).zoneCount z =
        acceptedIn rows z) ∧
    (∀ z, (z ∈ (ingestFile (some (fileBytes (hdr :: rows) eol)) prior).zoneCounts.keys ↔
        0 < acceptedIn rows z) ∧
      (z ∈ (ingestFile (some (fileBytes (hdr :: rows) eol)) prior).slotCountsByZone.keys ↔
        0 < acceptedIn rows z)) := by
  rw [ingestFile_fileBytes hdr rows eol prior hl]
  obtain ⟨hz, hs⟩ := counted_foldl rows
  refine ⟨?_, ?_, ?_⟩
  · intro z h hh
    unfold State.slotCount
    rw [hs z]
    split
    · rename_i h0
      have := acceptedAt_le rows z h
      have e : (zeroSlots.getD h 0) = 0 := by
        unfold zeroSlots
        rw [List.getD_eq_getElem?_getD, List.getElem?_replicate]
        split <;> rfl
      simp only [Option.getD_none, e]
      omega
    · simp [List.getD_eq_getElem?_getD, hh]
  · intro z
    unfold State.zoneCount
    rw [hz z]
    split
    · rename_i h0; simp [h0]
    · rfl
  · intro z
    rw [mem_keys_iff, mem_keys_iff, hz z, hs z]
    by_cases h0 : acceptedIn rows z = 0
    · simp [h0]
    · have : 0 < acceptedIn rows z := by omega
      simp [h0, this]

theorem ingestFile_counts_witness :
    (∀ l ∈ ascii "T0,Z7,Z9,2023-05-01 11:00" ::
        [ascii "T1,Z1,Z9,2023-05-01 08:15", ascii "", ascii "T2,,Z9,2023-05-01 08:15"],
      IsLine l) ∧
    (ingestFile (some (fileBytes (ascii "T0,Z7,Z9,2023-05-01 11:00" ::
        [ascii "T1,Z1,Z9,2023-05-01 08:15", ascii "", ascii "T2,,Z9,2023-05-01 08:15"]) true))
        { zoneCounts := [(ascii "Z5", 3)], slotCountsByZone := [] }).zoneCount (ascii "Z1") =
      acceptedIn [ascii "T1,Z1,Z9,2023-05-01 08:15", ascii "", ascii "T2,,Z9,2023-05-01 08:15"]
        (ascii "Z1") :=
  ⟨by decide, (ingestFile_counts _ _ true _ (by decide)).2.1 (ascii "Z1")⟩

/-- Claim C2.  `parseLine` rejects a line if and only if the line has fewer
than three commas (or is empty), or its second field is empty, or its fourth
field is shorter than 13 bytes, or the byte at offset 11 or at offset 12 of
the fourth field is not an ASCII digit, or the two-digit value of those bytes
is outside `[0, 23]`.  Empty first and third fields never cause a
rejection. -/
theorem parseLine_rejects_iff (line : Str) :
    parseLine line = none ↔
      ((line.count comma < 3 ∨ line = []) ∨ field 1 line = [] ∨
        (field 3 line).length < 13 ∨
        (isdigit ((field 3 line).getD 11 0) = false ∨
          isdigit ((field 3 line).getD 12 0) = false) ∨
        ¬ (0 ≤ hourValue (field 3 line) ∧ hourValue (field 3 line) ≤ 23)) := by
  have hlen := fields_length line
  have hnil : line = [] → line.count comma < 3 := by rintro rfl; simp
  rw [parseLine_eq_parseFields]
  unfold field
  rcases hf : fields line with _ | ⟨f0, _ | ⟨f1, _ | ⟨f2, _ | ⟨f3, tl⟩⟩⟩⟩ <;> rw [hf] at hlen <;>
    simp only [List.length_cons, List.length_nil] at hlen
  · omega
  · simp only [parseFields, true_iff]; left; left; omega
  · simp only [parseFields, true_iff]; left; left; omega
  · simp only [parseFields, true_iff]; left; left; omega
  · have h3 : ¬ (line.count comma < 3) := by omega
    have h4 : ¬ (line.count comma < 3 ∨ line = []) := fun h => h.elim h3 (fun e => h3 (hnil e))
    simp only [parseFields, List.getD_cons_succ, List.getD_cons_zero, h4, false_or]
    by_cases hz : f1 = []
    · simp [hz]
    · have hz2 : f1.isEmpty = false := by simpa using hz
      simp only [hz, hz2, false_or, Bool.false_eq_true, if_false, Option.map_eq_none']
      exact parseHourFast_eq_none f3

/-- Claim C3.  When `parseLine` accepts a line, the zone is exactly the text
between the first and the second comma (and is non-empty), the hour is
`(d[11]-'0')*10 + (d[12]-'0')` for the fourth field `d`, and it lies in
`[0, 23]`; so in any state whose arrays have their 24 elements the index
`hour` is within the array that `slotCountsByZone[zone]` refers to. -/
theorem parseLine_zone_hour (line z : Str) (h : Int) (hp : parseLine line = some (z, h)) :
    z = field 1 line ∧ z ≠ [] ∧ h = hourValue (field 3 line) ∧ 0 ≤ h ∧ h ≤ 23 ∧
    ∀ st, SlotsSized st →
      h.toNat < ((UMap.find st.slotCountsByZone z).getD zeroSlots).length := by
  obtain ⟨hz, hne, hh, h0, h23⟩ := parseLine_accepts line z h hp
  refine ⟨hz, hne, hh, h0, h23, ?_⟩
  intro st hs
  have hlen : ((UMap.find st.slotCountsByZone z).getD zeroSlots).length = 24 := by
    cases hf : UMap.find st.slotCountsByZone z with
    | none => rfl
    | some arr => exact hs (z, arr) (find_mem _ z arr hf)
  rw [hlen]; omega

theorem parseLine_zone_hour_witness :
    parseLine (ascii "T1,Z1,Z9,2023-05-01 08:15,3.2,10.5") = some (ascii "Z1", 8) ∧
    (ascii "Z1" = field 1 (ascii "T1,Z1,Z9,2023-05-01 08:15,3.2,10.5") ∧ ascii "Z1" ≠ [] ∧
      (8 : Int) = hourValue (field 3 (ascii "T1,Z1,Z9,2023-05-01 08:15,3.2,10.5")) ∧
      (0 : Int) ≤ 8 ∧ (8 : Int) ≤ 23 ∧
      ∀ st, SlotsSized st →
        (8 : Int).toNat < ((UMap.find st.slotCountsByZone (ascii "Z1")).getD zeroSlots).length) :=
  ⟨by decide, parseLine_zone_hour _ _ _ (by decide)⟩

/-- Claim C4.  With library routines that keep the promises of the C++
standard, and a map with one entry per key, `topZones(k)` is the first
`min(max(k,0), n)` elements of the ranking of all `n` entries of `zoneCounts`
by count descending, ties broken by zone ascending in byte-wise lexicographic
order (that ranking is a rearrangement of the entries in which every element
strictly precedes each later one).  The `partial_sort` branch returns the
prefix of that length of what `std::sort` returns, and for `k ≥ n` the result
holds every entry of `zoneCounts` exactly once. -/
theorem topZones_ranked_take (L : StdAlgorithms) (hL : L.Conforms) (st : State)
    (hn : st.zoneCounts.keys.Nodup) (k : Int) :
    topZones L st k = (rankedZones st).take (min (max k 0).toNat st.zoneCounts.length) ∧
    (rankedZones st).Perm (allZones st) ∧
    (rankedZones st).Pairwise (fun a b => zoneBefore a b = true) ∧
    ((max k 0).toNat < st.zoneCounts.length →
      topZones L st k =
        (L.stdSort cmpZone (st.zoneCounts.map (fun p => ZoneCount.mk p.1 p.2))).take
          (max k 0).toNat) ∧
    ((st.zoneCounts.length : Int) ≤ k →
      (topZones L st k).Perm (allZones st) ∧
        ((topZones L st k).map ZoneCount.zone).Nodup) := by
  have hmain := topZones_eq_take L hL st hn k
  have hperm : (rankedZones st).Perm (allZones st) := isort_perm zoneBefore _
  have hnd : (allZones st).Nodup := by
    apply List.Nodup.of_map ZoneCount.zone
    rw [allZones_zones]; exact hn
  refine ⟨hmain, hperm, isort_pairwise_strict zoneBefore zoneBefore_strictTotal _ hnd, ?_, ?_⟩
  · intro hlt
    have hc : cmpZone = zoneBefore := by funext a b; exact cmpZone_eq_zoneBefore a b
    rw [hmain, conforms_sort_eq L hL cmpZone cmpZone_strictTotal, zone_entries_eq st hn, hc,
      min_eq_left (by omega)]
    rfl
  · intro hge
    have hlen : (rankedZones st).length = st.zoneCounts.length := by
      rw [hperm.length_eq, allZones_length]
    have e : topZones L st k = rankedZones st := by
      rw [hmain, min_eq_right (by omega), List.take_of_length_le (by omega)]
    rw [e]
    refine ⟨hperm, ?_⟩
    rw [(hperm.map ZoneCount.zone).nodup_iff, allZones_zones]
    exact hn

theorem topZones_ranked_take_witness :
    refAlgorithms.Conforms ∧
    (UMap.keys [(ascii "Z2", 1), (ascii "Z1", 2), (ascii "Z3", 1)]).Nodup ∧
    topZones refAlgorithms
        { zoneCounts := [(ascii "Z2", 1), (ascii "Z1", 2), (ascii "Z3", 1)],
          slotCountsByZone := [] } 2 =
      (rankedZones
        { zoneCounts := [(ascii "Z2", 1), (ascii "Z1", 2), (ascii "Z3", 1)],
          slotCountsByZone := [] }).take (min (max (2 : Int) 0).toNat 3) :=
  ⟨refAlgorithms_conforms, by decide,
    (topZones_ranked_take refAlgorithms refAlgorithms_conforms
      { zoneCounts := [(ascii "Z2", 1), (ascii "Z1", 2), (ascii "Z3", 1)],
        slotCountsByZone := [] } (by decide) 2).1⟩

/-- Claim C5.  With library routines that keep the promises of the C++
standard, and a map with one entry per key, `topBusySlots(k)` is the first
`min(max(k,0), m)` elements of the ranking of all `m` entries
`(z, h, slotCounts[z][h])` with a positive count, by count descending, ties
broken by zone ascending (byte-wise), then by hour ascending.  For `k ≥ m`
every such entry appears, and no pair `(zone, hour)` appears twice. -/
theorem topBusySlots_ranked_take (L : StdAlgorithms) (hL : L.Conforms) (st : State)
    (hn : st.slotCountsByZone.keys.Nodup) (k : Int) :
    topBusySlots L st k =
      (rankedSlots st).take (min (max k 0).toNat (allSlots st).length) ∧
    (rankedSlots st).Perm (allSlots st) ∧
    (rankedSlots st).Pairwise (fun a b => slotBefore a b = true) ∧
    (∀ e, e ∈ allSlots st ↔
      e.zone ∈ st.slotCountsByZone.keys ∧
      ∃ h : Nat, h < 24 ∧ e.hour = h ∧ e.count = st.slotCount e.zone h ∧ 0 < e.count) ∧
    (((allSlots st).length : Int) ≤ k →
      (topBusySlots L st k).Perm (allSlots st) ∧
        ((topBusySlots L st k).map (fun e => (e.zone, e.hour))).Nodup) := by
  have hmain := topBusySlots_eq_take L hL st hn k
  have hperm : (rankedSlots st).Perm (allSlots st) := isort_perm slotBefore _
  refine ⟨hmain, hperm,
    isort_pairwise_strict slotBefore slotBefore_strictTotal _ (allSlots_entries_nodup st hn),
    mem_allSlots st, ?_⟩
  intro hge
  have e : topBusySlots L st k = rankedSlots st := by
    rw [hmain, min_eq_right (by omega), List.take_of_length_le (by rw [hperm.length_eq])]
  rw [e]
  refine ⟨hperm, ?_⟩
  rw [(hperm.map (fun e => (e.zone, e.hour))).nodup_iff]
  exact allSlots_nodup st hn

theorem topBusySlots_ranked_take_witness :
    refAlgorithms.Conforms ∧
    (UMap.keys [(ascii "Z2", zeroSlots.set 23 1), (ascii "Z1", (zeroSlots.set 8 2).set 9 1)]).Nodup ∧
    topBusySlots refAlgorithms
        { zoneCounts := [(ascii "Z2", 1), (ascii "Z1", 3)],
          slotCountsByZone :=
            [(ascii "Z2", zeroSlots.set 23 1), (ascii "Z1", (zeroSlots.set 8 2).set 9 1)] } 2 =
      (rankedSlots
        { zoneCounts := [(ascii "Z2", 1), (ascii "Z1", 3)],
          slotCountsByZone :=
            [(ascii "Z2", zeroSlots.set 23 1), (ascii "Z1", (zeroSlots.set 8 2).set 9 1)] }).take
        (min (max (2 : Int) 0).toNat
          (allSlots
            { zoneCounts := [(ascii "Z2", 1), (ascii "Z1", 3)],
              slotCountsByZone :=
                [(ascii "Z2", zeroSlots.set 23 1),
                  (ascii "Z1", (zeroSlots.set 8 2).set 9 1)] }).length) :=
  ⟨refAlgorithms_conforms, by decide,
    (topBusySlots_ranked_take refAlgorithms refAlgorithms_conforms
      { zoneCounts := [(ascii "Z2", 1), (ascii "Z1", 3)],
        slotCountsByZone :=
          [(ascii "Z2", zeroSlots.set 23 1), (ascii "Z1", (zeroSlots.set 8 2).set 9 1)] }
      (by decide) 2).1⟩

/-- Claim C6.  After `ingestFile`, for every prior state and every outcome of
opening the file (unopenable, or any bytes), every zone `z` that is a key of
either map has a count `zoneCounts[z]` and a 24-element array `slotCounts[z]`,
and the count is the sum of `slotCounts[z][h]` over `h = 0..23`. -/
theorem ingestFile_zone_total (fin : Option Stream) (prior : State) (z : Str)
    (hz : z ∈ (ingestFile fin prior).zoneCounts.keys ∨
      z ∈ (ingestFile fin prior).slotCountsByZone.keys) :
    ∃ n arr, UMap.find (ingestFile fin prior).zoneCounts z = some n ∧
      UMap.find (ingestFile fin prior).slotCountsByZone z = some arr ∧
      arr.length = 24 ∧
      n = ((List.range 24).map (fun h => arr.getD h 0)).sum := by
  rcases ingestFile_consistent fin prior z with ⟨e1, e2⟩ | ⟨n, arr, e1, e2, hl, hs⟩
  · rcases hz with hz | hz
    · exact absurd hz ((find_eq_none _ z).1 e1)
    · exact absurd hz ((find_eq_none _ z).1 e2)
  · exact ⟨n, arr, e1, e2, hl, by rw [map_getD_range arr 24 hl]; exact hs⟩

theorem ingestFile_zone_total_witness :
    (ascii "Z1" ∈ (ingestFile
        (some (fileBytes [ascii "hdr", ascii "T1,Z1,Z9,2023-05-01 08:15",
          ascii "T2,Z1,Z9,2023-05-01 23:59"] true))
        { zoneCounts := [], slotCountsByZone := [] }).zoneCounts.keys ∨
      ascii "Z1" ∈ (ingestFile
        (some (fileBytes [ascii "hdr", ascii "T1,Z1,Z9,2023-05-01 08:15",
          ascii "T2,Z1,Z9,2023-05-01 23:59"] true))
        { zoneCounts := [], slotCountsByZone := [] }).slotCountsByZone.keys) ∧
    ∃ n arr, UMap.find (ingestFile
        (some (fileBytes [ascii "hdr", ascii "T1,Z1,Z9,2023-05-01 08:15",
          ascii "T2,Z1,Z9,2023-05-01 23:59"] true))
        { zoneCounts := [], slotCountsByZone := [] }).zoneCounts (ascii "Z1") = some n ∧
      UMap.find (ingestFile
        (some (fileBytes [ascii "hdr", ascii "T1,Z1,Z9,2023-05-01 08:15",
          ascii "T2,Z1,Z9,2023-05-01 23:59"] true))
        { zoneCounts := [], slotCountsByZone := [] }).slotCountsByZone (ascii "Z1") = some arr ∧
      arr.length = 24 ∧
      n = ((List.range 24).map (fun h => arr.getD h 0)).sum :=
  ⟨by decide, ingestFile_zone_total _ _ _ (by decide)⟩

/-- Claim C7.  After `ingestFile`, `zoneCounts` and `slotCountsByZone` have the
same keys. -/
theorem ingestFile_same_keys (fin : Option Stream) (prior : State) (z : Str) :
    z ∈ (ingestFile fin prior).zoneCounts.keys ↔
      z ∈ (ingestFile fin prior).slotCountsByZone.keys := by
  rw [mem_keys_iff, mem_keys_iff]
  rcases ingestFile_consistent fin prior z with ⟨e1, e2⟩ | ⟨n, arr, e1, e2, _, _⟩
  · rw [e1, e2]
    exact ⟨fun ⟨_, h⟩ => (by cases h), fun ⟨_, h⟩ => (by cases h)⟩
  · rw [e1, e2]
    exact ⟨fun _ => ⟨arr, rfl⟩, fun _ => ⟨n, rfl⟩⟩

/-- Claim C8.  Full replace: the state after `ingestFile` does not depend on the
prior state, so loading a file twice in a row gives the state of loading it
once. -/
theorem ingestFile_full_replace :
    (∀ (s1 s2 : State) (fin : Option Stream), ingestFile fin s1 = ingestFile fin s2) ∧
    (∀ (s : State) (fin : Option Stream),
      ingestFile fin (ingestFile fin s) = ingestFile fin s) :=
  ⟨fun _ _ _ => rfl, fun _ _ => rfl⟩

/-- Claim C9.  Whatever the prior state, `ingestFile` on a path that cannot be
opened, on a file without lines, or on a file with a header line only leaves
both maps empty, and then `topZones(k)` and `topBusySlots(k)` are empty for
every integer `k`. -/
theorem ingestFile_empty_load (L : StdAlgorithms) (hL : L.Conforms) (prior : State)
    (fin : Option Stream)
    (hfin : fin = none ∨ fin = some [] ∨
      ∃ hdr eol, IsLine hdr ∧ fin = some (fileBytes [hdr] eol)) (k : Int) :
    (ingestFile fin prior).zoneCounts = [] ∧
    (ingestFile fin prior).slotCountsByZone = [] ∧
    topZones L (ingestFile fin prior) k = [] ∧
    topBusySlots L (ingestFile fin prior) k = [] := by
  have he : ingestFile fin prior = { zoneCounts := [], slotCountsByZone := [] } := by
    rcases hfin with rfl | rfl | ⟨hdr, eol, hl, rfl⟩
    · rfl
    · rfl
    · rw [ingestFile_fileBytes hdr [] eol prior (by simpa using hl)]
      rfl
  rw [he]
  refine ⟨rfl, rfl, ?_, ?_⟩
  · unfold topZones
    simp only [List.map_nil, List.length_nil, Nat.not_lt_zero, if_false]
    exact sort_nil L hL cmpZone cmpZone_strictTotal
  · unfold topBusySlots busySlots
    simp only [List.flatMap_nil, List.length_nil, Nat.not_lt_zero, if_false]
    exact sort_nil L hL cmpSlot cmpSlot_strictTotal

theorem ingestFile_empty_load_witness :
    refAlgorithms.Conforms ∧
    ((some (fileBytes [ascii "TripID,PickupZoneID,DropoffZoneID,PickupDateTime"] true) :
        Option Stream) = none ∨
      some (fileBytes [ascii "TripID,PickupZoneID,DropoffZoneID,PickupDateTime"] true) =
        some [] ∨
      ∃ hdr eol, IsLine hdr ∧
        some (fileBytes [ascii "TripID,PickupZoneID,DropoffZoneID,PickupDateTime"] true) =
          some (fileBytes [hdr] eol)) ∧
    topZones refAlgorithms
      (ingestFile (some (fileBytes [ascii "TripID,PickupZoneID,DropoffZoneID,PickupDateTime"] true))
        { zoneCounts := [(ascii "Z1", 2)], slotCountsByZone := [(ascii "Z1", zeroSlots.set 8 2)] })
      5 = [] :=
  ⟨refAlgorithms_conforms, Or.inr (Or.inr ⟨_, true, by decide, rfl⟩),
    (ingestFile_empty_load refAlgorithms refAlgorithms_conforms _ _
      (Or.inr (Or.inr ⟨_, true, by decide, rfl⟩)) 5).2.2.1⟩

/-- Claim C10.  A row `x` that is empty or that `parseLine` rejects changes
nothing: loading `hdr :: a ++ [x] ++ b` gives the same state as loading
`hdr :: a ++ b`. -/
theorem ingestFile_skips_bad_row (hdr : Str) (a b : List Str) (x : Str) (eol : Bool)
    (prior : State) (hl : ∀ l ∈ hdr :: (a ++ [x] ++ b), IsLine l)
    (hx : x = [] ∨ parseLine x = none) :
    ingestFile (some (fileBytes (hdr :: (a ++ [x] ++ b)) eol)) prior =
      ingestFile (some (fileBytes (hdr :: (a ++ b)) eol)) prior := by
  have hl2 : ∀ l ∈ hdr :: (a ++ b), IsLine l := by
    intro l hm
    apply hl l
    simp only [List.mem_cons, List.mem_append, List.mem_singleton] at hm ⊢
    tauto
  rw [ingestFile_fileBytes hdr _ eol prior hl, ingestFile_fileBytes hdr _ eol prior hl2]
  simp only [List.foldl_append, List.foldl_cons, List.foldl_nil]
  rw [ingestRow_skip _ x hx]

theorem ingestFile_skips_bad_row_witness :
    (∀ l ∈ ascii "hdr" :: ([ascii "T1,Z1,Z9,2023-05-01 08:15"] ++ [ascii "T4,,Z9,2023-05-01 10:00"] ++
        [ascii "T3,Z2,Z9,2023-05-01 23:59"]), IsLine l) ∧
    (ascii "T4,,Z9,2023-05-01 10:00" = [] ∨ parseLine (ascii "T4,,Z9,2023-05-01 10:00") = none) ∧
    ingestFile (some (fileBytes (ascii "hdr" :: ([ascii "T1,Z1,Z9,2023-05-01 08:15"] ++
        [ascii "T4,,Z9,2023-05-01 10:00"] ++ [ascii "T3,Z2,Z9,2023-05-01 23:59"])) false))
        { zoneCounts := [], slotCountsByZone := [] } =
      ingestFile (some (fileBytes (ascii "hdr" :: ([ascii "T1,Z1,Z9,2023-05-01 08:15"] ++
        [ascii "T3,Z2,Z9,2023-05-01 23:59"])) false))
        { zoneCounts := [], slotCountsByZone := [] } :=
  ⟨by decide, Or.inr (by decide),
    ingestFile_skips_bad_row _ _ _ _ false _ (by decide) (Or.inr (by decide))⟩

/-- Claim C11.  With library routines that keep the promises of the C++
standard and a map with one entry per key, for every `k ≥ 0` the report
`topZones(k)` has at most `k` entries, the counts of consecutive entries never
increase, and two consecutive entries with equal counts have strictly
ascending zones (byte-wise lexicographic order). -/
theorem topZones_bounded_ordered (L : StdAlgorithms) (hL : L.Conforms) (st : State)
    (hn : st.zoneCounts.keys.Nodup) (k : Int) (hk : 0 ≤ k) :
    ((topZones L st k).length : Int) ≤ k ∧
    List.Chain' (fun a b => b.count ≤ a.count ∧
      (a.count = b.count → List.Lex (· < ·) a.zone b.zone)) (topZones L st k) := by
  rw [topZones_eq_take L hL st hn k]
  constructor
  · rw [List.length_take, max_eq_left hk]
    omega
  · apply List.Pairwise.chain'
    exact List.Pairwise.imp (fun {a b} h => zoneBefore_order a b h)
      ((rankedZones_pairwise st hn).sublist (List.take_sublist _ _))

theorem topZones_bounded_ordered_witness :
    refAlgorithms.Conforms ∧
    (UMap.keys [(ascii "Z2", 1), (ascii "Z1", 2), (ascii "Z3", 1)]).Nodup ∧
    (0 : Int) ≤ 2 ∧
    ((topZones refAlgorithms
        { zoneCounts := [(ascii "Z2", 1), (ascii "Z1", 2), (ascii "Z3", 1)],
          slotCountsByZone := [] } 2).length : Int) ≤ 2 ∧
    List.Chain' (fun a b => b.count ≤ a.count ∧
      (a.count = b.count → List.Lex (· < ·) a.zone b.zone))
      (topZones refAlgorithms
        { zoneCounts := [(ascii "Z2", 1), (ascii "Z1", 2), (ascii "Z3", 1)],
          slotCountsByZone := [] } 2) :=
  ⟨refAlgorithms_conforms, by decide, by decide,
    topZones_bounded_ordered refAlgorithms refAlgorithms_conforms
      { zoneCounts := [(ascii "Z2", 1), (ascii "Z1", 2), (ascii "Z3", 1)],
        slotCountsByZone := [] } (by decide) 2 (by decide)⟩

/-- Claim C12.  For every state and every negative `k`, `topZones(k)` and
`topBusySlots(k)` are empty, as they are for `k = 0`. -/
theorem reports_negative_k (L : StdAlgorithms) (hL : L.Conforms) (st : State) (k : Int)
    (hk : k < 0) :
    topZones L st k = [] ∧ topBusySlots L st k = [] ∧
    topZones L st k = topZones L st 0 ∧ topBusySlots L st k = topBusySlots L st 0 := by
  have z1 : topZones L st k = [] :=
    topk_neg L hL cmpZone cmpZone_strictTotal _ k (by omega)
  have z0 : topZones L st 0 = [] :=
    topk_neg L hL cmpZone cmpZone_strictTotal _ 0 (le_refl _)
  have s1 : topBusySlots L st k = [] :=
    topk_neg L hL cmpSlot cmpSlot_strictTotal _ k (by omega)
  have s0 : topBusySlots L st 0 = [] :=
    topk_neg L hL cmpSlot cmpSlot_strictTotal _ 0 (le_refl _)
  exact ⟨z1, s1, z1.trans z0.symm, s1.trans s0.symm⟩

theorem reports_negative_k_witness :
    refAlgorithms.Conforms ∧ (-3 : Int) < 0 ∧
    topZones refAlgorithms
      { zoneCounts := [(ascii "Z1", 2)], slotCountsByZone := [(ascii "Z1", zeroSlots.set 8 2)] }
      (-3) = [] ∧
    topBusySlots refAlgorithms
      { zoneCounts := [(ascii "Z1", 2)], slotCountsByZone := [(ascii "Z1", zeroSlots.set 8 2)] }
      (-3) = [] :=
  ⟨refAlgorithms_conforms, by decide,
    (reports_negative_k refAlgorithms refAlgorithms_conforms _ (-3) (by decide)).1,
    (reports_negative_k refAlgorithms refAlgorithms_conforms _ (-3) (by decide)).2.1⟩

/-- Claim C13.  Every entry `(zone, hour, count)` of `topBusySlots(k)`, for every
state with one entry per key and every integer `k`, has a count greater than
0, an hour in `[0, 23]`, a zone that is a key of `slotCountsByZone`, and
`count = slotCounts[zone][hour]`; so no slot with count 0 is reported. -/
theorem topBusySlots_positive (L : StdAlgorithms) (hL : L.Conforms) (st : State)
    (hn : st.slotCountsByZone.keys.Nodup) (k : Int) (e : SlotCount)
    (he : e ∈ topBusySlots L st k) :
    0 < e.count ∧ 0 ≤ e.hour ∧ e.hour ≤ 23 ∧
    e.zone ∈ st.slotCountsByZone.keys ∧
    e.count = st.slotCount e.zone e.hour.toNat := by
  obtain ⟨hz, h, hh, eh, ec, hpos⟩ :=
    (mem_allSlots st e).1 (mem_topBusySlots L hL st hn k e he)
  refine ⟨hpos, by omega, by omega, hz, ?_⟩
  rw [eh]
  exact ec

theorem topBusySlots_positive_witness :
    refAlgorithms.Conforms ∧
    (UMap.keys [(ascii "Z2", zeroSlots.set 23 1), (ascii "Z1", (zeroSlots.set 8 2).set 9 1)]).Nodup ∧
    SlotCount.mk (ascii "Z1") 8 2 ∈ topBusySlots refAlgorithms
        { zoneCounts := [(ascii "Z2", 1), (ascii "Z1", 3)],
          slotCountsByZone :=
            [(ascii "Z2", zeroSlots.set 23 1), (ascii "Z1", (zeroSlots.set 8 2).set 9 1)] } 2 ∧
    0 < (SlotCount.mk (ascii "Z1") 8 2).count ∧
    (SlotCount.mk (ascii "Z1") 8 2).hour ≤ 23 :=
  ⟨refAlgorithms_conforms, by decide, by decide,
    (topBusySlots_positive refAlgorithms refAlgorithms_conforms
      { zoneCounts := [(ascii "Z2", 1), (ascii "Z1", 3)],
        slotCountsByZone :=
          [(ascii "Z2", zeroSlots.set 23 1), (ascii "Z1", (zeroSlots.set 8 2).set 9 1)] }
      (by decide) 2 (SlotCount.mk (ascii "Z1") 8 2) (by decide)).1,
    (topBusySlots_positive refAlgorithms refAlgorithms_conforms
      { zoneCounts := [(ascii "Z2", 1), (ascii "Z1", 3)],
        slotCountsByZone :=
          [(ascii "Z2", zeroSlots.set 23 1), (ascii "Z1", (zeroSlots.set 8 2).set 9 1)] }
      (by decide) 2 (SlotCount.mk (ascii "Z1") 8 2) (by decide)).2.2.1⟩

/-- Claim C14.  Text after the datetime field does not matter: for a line with
at least three commas and any text `s` (commas allowed), the line followed by
a comma and `s` is parsed exactly as the line itself (both rejected, or both
accepted with the same zone and hour). -/
theorem parseLine_trailing (line s : Str) (h : 3 ≤ line.count comma) :
    parseLine (line ++ [comma] ++ s) = parseLine line := by
  rw [parseLine_eq_parseFields, parseLine_eq_parseFields]
  have e : line ++ [comma] ++ s = line ++ comma :: s := by simp
  rw [e, fields_append_comma]
  exact parseFields_append _ _ (by rw [fields_length]; omega)

theorem parseLine_trailing_witness :
    3 ≤ (ascii "T1,Z1,Z9,2023-05-01 08:15").count comma ∧
    parseLine (ascii "T1,Z1,Z9,2023-05-01 08:15" ++ [comma] ++ ascii "3.2,10.5,,x") =
      parseLine (ascii "T1,Z1,Z9,2023-05-01 08:15") :=
  ⟨by decide, parseLine_trailing _ _ (by decide)⟩

/-- Claim C15.  Two lines that each have at least four fields, the same second
field, and fourth fields of at least 13 bytes that agree on offsets `0..12`
are parsed alike (same rejection, or same zone and hour), whatever their
first and third fields and the rest of the datetime.  (The lemma
`parseHourFast_congr` shows that only offsets 11 and 12 are looked at.) -/
theorem parseLine_depends_on (l1 l2 : Str) (h1 : 3 ≤ l1.count comma)
    (h2 : 3 ≤ l2.count comma) (hz : field 1 l1 = field 1 l2)
    (hd1 : 13 ≤ (field 3 l1).length) (hd2 : 13 ≤ (field 3 l2).length)
    (hd : ∀ i, i < 13 → (field 3 l1).getD i 0 = (field 3 l2).getD i 0) :
    parseLine l1 = parseLine l2 := by
  rw [parseLine_eq_of_fields l1 h1, parseLine_eq_of_fields l2 h2, hz,
    parseHourFast_congr _ _ hd1 hd2 (hd 11 (by omega)) (hd 12 (by omega))]

theorem parseLine_depends_on_witness :
    3 ≤ (ascii "T1,Z1,Z9,2023-05-01 08:15,3.2").count comma ∧
    3 ≤ (ascii ",Z1,Q,2023-05-01 08xyz").count comma ∧
    parseLine (ascii "T1,Z1,Z9,2023-05-01 08:15,3.2") =
      parseLine (ascii ",Z1,Q,2023-05-01 08xyz") :=
  ⟨by decide, by decide,
    parseLine_depends_on _ _ (by decide) (by decide) (by decide) (by decide) (by decide)
      (by decide)⟩

/-- Claim C16.  The reports depend on the mappings only: for two enumeration
orders of the same map entries (and any two libraries that keep the promises
of the C++ standard) `topZones(k)` and `topBusySlots(k)` return the same
sequence, for every `k`.  The comparators are strict total orders: two entries
with distinct zones (two slot entries with distinct zone and hour pairs) are
always ordered one way or the other. -/
theorem reports_deterministic (L1 L2 : StdAlgorithms) (h1 : L1.Conforms) (h2 : L2.Conforms)
    (st1 st2 : State) (hz : st1.zoneCounts.Perm st2.zoneCounts)
    (hs : st1.slotCountsByZone.Perm st2.slotCountsByZone) (k : Int) :
    topZones L1 st1 k = topZones L2 st2 k ∧
    topBusySlots L1 st1 k = topBusySlots L2 st2 k ∧
    StrictTotal cmpZone ∧ StrictTotal cmpSlot ∧
    (∀ a b : ZoneCount, a.zone ≠ b.zone → cmpZone a b = true ∨ cmpZone b a = true) ∧
    (∀ a b : SlotCount, (a.zone, a.hour) ≠ (b.zone, b.hour) →
      cmpSlot a b = true ∨ cmpSlot b a = true) := by
  refine ⟨topZones_of_perm L1 L2 h1 h2 st1 st2 hz k,
    topBusySlots_of_perm L1 L2 h1 h2 st1 st2 hs k, cmpZone_strictTotal, cmpSlot_strictTotal,
    ?_, ?_⟩
  · intro a b hne
    cases hab : cmpZone a b with
    | true => exact Or.inl rfl
    | false =>
      cases hba : cmpZone b a with
      | true => exact Or.inr rfl
      | false =>
        have := cmpZone_strictTotal.2.2 a b hab hba
        exact absurd (by rw [this]) hne
  · intro a b hne
    cases hab : cmpSlot a b with
    | true => exact Or.inl rfl
    | false =>
      cases hba : cmpSlot b a with
      | true => exact Or.inr rfl
      | false =>
        have := cmpSlot_strictTotal.2.2 a b hab hba
        exact absurd (by rw [this]) hne

theorem reports_deterministic_witness :
    refAlgorithms.Conforms ∧
    List.Perm [(ascii "Z2", 1), (ascii "Z1", 2), (ascii "Z3", 1)]
      [(ascii "Z3", 1), (ascii "Z2", 1), (ascii "Z1", 2)] ∧
    List.Perm [(ascii "Z2", zeroSlots.set 23 1), (ascii "Z1", zeroSlots.set 8 2)]
      [(ascii "Z1", zeroSlots.set 8 2), (ascii "Z2", zeroSlots.set 23 1)] ∧
    topZones refAlgorithms
        { zoneCounts := [(ascii "Z2", 1), (ascii "Z1", 2), (ascii "Z3", 1)],
          slotCountsByZone := [(ascii "Z2", zeroSlots.set 23 1), (ascii "Z1", zeroSlots.set 8 2)] }
        2 =
      topZones refAlgorithms
        { zoneCounts := [(ascii "Z3", 1), (ascii "Z2", 1), (ascii "Z1", 2)],
          slotCountsByZone := [(ascii "Z1", zeroSlots.set 8 2), (ascii "Z2", zeroSlots.set 23 1)] }
        2 :=
  ⟨refAlgorithms_conforms, by decide, by decide,
    (reports_deterministic refAlgorithms refAlgorithms refAlgorithms_conforms
      refAlgorithms_conforms
      { zoneCounts := [(ascii "Z2", 1), (ascii "Z1", 2), (ascii "Z3", 1)],
        slotCountsByZone := [(ascii "Z2", zeroSlots.set 23 1), (ascii "Z1", zeroSlots.set 8 2)] }
      { zoneCounts := [(ascii "Z3", 1), (ascii "Z2", 1), (ascii "Z1", 2)],
        slotCountsByZone := [(ascii "Z1", zeroSlots.set 8 2), (ascii "Z2", zeroSlots.set 23 1)] }
      (by decide) (by decide) 2).1⟩

/-- Claim C17.  A line with at least four fields, a non-empty second field
and a fourth field of exactly 13 bytes whose bytes at offsets 11 and 12 are
digits with a value in `[0, 23]` is accepted with that hour; a line whose
fourth field has exactly 12 bytes is rejected; and a row whose datetime is
`2023-05-01 09` is accepted with hour 9. -/
theorem parseLine_length_boundary (line : Str) :
    (3 ≤ line.count comma → field 1 line ≠ [] → (field 3 line).length = 13 →
      isdigit ((field 3 line).getD 11 0) = true → isdigit ((field 3 line).getD 12 0) = true →
      0 ≤ hourValue (field 3 line) → hourValue (field 3 line) ≤ 23 →
      parseLine line = some (field 1 line, hourValue (field 3 line))) ∧
    ((field 3 line).length = 12 → parseLine line = none) ∧
    parseLine (ascii "T1,Z1,Z9,2023-05-01 09") = some (ascii "Z1", 9) := by
  refine ⟨?_, ?_, by decide⟩
  · intro h3 hz hl d1 d2 v0 v23
    rw [parseLine_eq_of_fields line h3]
    have hz2 : (field 1 line).isEmpty = false := by simpa using hz
    rw [hz2]
    have := (parseHourFast_eq_some (field 3 line) (hourValue (field 3 line))).2
      ⟨by omega, d1, d2, rfl, v0, v23⟩
    rw [this]; rfl
  · intro hl
    rw [parseLine_eq_parseFields]
    unfold field at hl
    rcases hf : fields line with _ | ⟨f0, _ | ⟨f1, _ | ⟨f2, _ | ⟨f3, tl⟩⟩⟩⟩ <;>
      rw [hf] at hl
    · simp at hl
    · simp at hl
    · simp at hl
    · simp at hl
    · simp only [List.getD_cons_succ, List.getD_cons_zero] at hl
      simp only [parseFields]
      rw [parseHourFast_short f3 (by omega)]
      split <;> rfl

theorem parseLine_length_boundary_witness :
    (3 ≤ (ascii "T1,Z1,Z9,2023-05-01 23").count comma ∧
      field 1 (ascii "T1,Z1,Z9,2023-05-01 23") ≠ [] ∧
      (field 3 (ascii "T1,Z1,Z9,2023-05-01 23")).length = 13 ∧
      parseLine (ascii "T1,Z1,Z9,2023-05-01 23") =
        some (field 1 (ascii "T1,Z1,Z9,2023-05-01 23"),
          hourValue (field 3 (ascii "T1,Z1,Z9,2023-05-01 23")))) ∧
    ((field 3 (ascii "T1,Z1,Z9,2023-05-01 2")).length = 12 ∧
      parseLine (ascii "T1,Z1,Z9,2023-05-01 2") = none) :=
  ⟨⟨by decide, by decide, by decide,
      (parseLine_length_boundary (ascii "T1,Z1,Z9,2023-05-01 23")).1 (by decide) (by decide)
        (by decide) (by decide) (by decide) (by decide) (by decide)⟩,
    ⟨by decide, (parseLine_length_boundary (ascii "T1,Z1,Z9,2023-05-01 2")).2.1 (by decide)⟩⟩

/-- Claim C18.  The end-to-end example of the specification: after loading the
header line and the four rows (the last one with an empty zone), with or
without a final newline and whatever the prior state, `topZones(2)` is
`[(Z1,2),(Z2,1)]` and `topBusySlots(5)` is `[(Z1,8,2),(Z2,23,1)]`. -/
theorem end_to_end_example (L : StdAlgorithms) (hL : L.Conforms) (prior : State)
    (eol : Bool) :
    topZones L (ingestFile (some (fileBytes
        [ascii "TripID,PickupZoneID,DropoffZoneID,PickupDateTime,DistanceKm,FareAmount",
          ascii "T1,Z1,Z9,2023-05-01 08:15,3.2,10.5",
          ascii "T2,Z1,Z9,2023-05-01 08:45,2.0,9.0",
          ascii "T3,Z2,Z9,2023-05-01 23:59,1.0,5.0",
          ascii "T4,,Z9,2023-05-01 10:00,1.0,5.0"] eol)) prior) 2 =
      [ZoneCount.mk (ascii "Z1") 2, ZoneCount.mk (ascii "Z2") 1] ∧
    topBusySlots L (ingestFile (some (fileBytes
        [ascii "TripID,PickupZoneID,DropoffZoneID,PickupDateTime,DistanceKm,FareAmount",
          ascii "T1,Z1,Z9,2023-05-01 08:15,3.2,10.5",
          ascii "T2,Z1,Z9,2023-05-01 08:45,2.0,9.0",
          ascii "T3,Z2,Z9,2023-05-01 23:59,1.0,5.0",
          ascii "T4,,Z9,2023-05-01 10:00,1.0,5.0"] eol)) prior) 5 =
      [SlotCount.mk (ascii "Z1") 8 2, SlotCount.mk (ascii "Z2") 23 1] := by
  have hst : ingestFile (some (fileBytes
        [ascii "TripID,PickupZoneID,DropoffZoneID,PickupDateTime,DistanceKm,FareAmount",
          ascii "T1,Z1,Z9,2023-05-01 08:15,3.2,10.5",
          ascii "T2,Z1,Z9,2023-05-01 08:45,2.0,9.0",
          ascii "T3,Z2,Z9,2023-05-01 23:59,1.0,5.0",
          ascii "T4,,Z9,2023-05-01 10:00,1.0,5.0"] eol)) prior =
      { zoneCounts := [(ascii "Z1", 2), (ascii "Z2", 1)],
        slotCountsByZone := [(ascii "Z1", zeroSlots.set 8 2), (ascii "Z2", zeroSlots.set 23 1)] } := by
    have h0 : ∀ fin, ingestFile fin prior =
        ingestFile fin { zoneCounts := [], slotCountsByZone := [] } := fun _ => rfl
    rw [h0]
    exact example_file_state eol
  rw [hst]
  constructor
  · rw [topZones_eq_take L hL _ (by decide)]
    decide
  · rw [topBusySlots_eq_take L hL _ (by decide)]
    decide

theorem end_to_end_example_witness :
    refAlgorithms.Conforms ∧
    topZones refAlgorithms (ingestFile (some (fileBytes
        [ascii "TripID,PickupZoneID,DropoffZoneID,PickupDateTime,DistanceKm,FareAmount",
          ascii "T1,Z1,Z9,2023-05-01 08:15,3.2,10.5",
          ascii "T2,Z1,Z9,2023-05-01 08:45,2.0,9.0",
          ascii "T3,Z2,Z9,2023-05-01 23:59,1.0,5.0",
          ascii "T4,,Z9,2023-05-01 10:00,1.0,5.0"] true))
        { zoneCounts := [], slotCountsByZone := [] }) 2 =
      [ZoneCount.mk (ascii "Z1") 2, ZoneCount.mk (ascii "Z2") 1] :=
  ⟨refAlgorithms_conforms,
    (end_to_end_example refAlgorithms refAlgorithms_conforms
      { zoneCounts := [], slotCountsByZone := [] } true).1⟩

/-- Claim C19.  After any load, with `n` the number of zones and `m` the number
of positive slots: the counts of `topZones(n)` and of `topBusySlots(m)` have
the same sum, which for a file of lines is the number of data lines that
`parseLine` accepts; the count that `topZones(n)` reports for a zone is the
sum of the counts of the `topBusySlots(m)` entries of that zone; every zone
count is at least 1; and every zone of `topZones(n)` has at least one and at
most 24 entries in `topBusySlots(m)`. -/
theorem reports_conserve_rows (L : StdAlgorithms) (hL : L.Conforms) (fin : Option Stream)
    (prior st : State) (hst : st = ingestFile fin prior) :
    ((topZones L st st.zoneCounts.length).map ZoneCount.count).sum =
      ((topBusySlots L st (allSlots st).length).map SlotCount.count).sum ∧
    (∀ hdr rows eol, (∀ l ∈ hdr :: rows, IsLine l) →
      fin = some (fileBytes (hdr :: rows) eol) →
      ((topZones L st st.zoneCounts.length).map ZoneCount.count).sum = acceptedCount rows) ∧
    (∀ e ∈ topZones L st st.zoneCounts.length,
      e.count = (((topBusySlots L st (allSlots st).length).filter
        (fun s => decide (s.zone = e.zone))).map SlotCount.count).sum) ∧
    (∀ p ∈ st.zoneCounts, 1 ≤ p.2) ∧
    (∀ e ∈ topZones L st st.zoneCounts.length,
      1 ≤ ((topBusySlots L st (allSlots st).length).filter
        (fun s => decide (s.zone = e.zone))).length ∧
      ((topBusySlots L st (allSlots st).length).filter
        (fun s => decide (s.zone = e.zone))).length ≤ 24) := by
  have hb : Balanced st := by rw [hst]; exact ingestFile_balanced fin prior
  have hc : Consistent st := by rw [hst]; exact ingestFile_consistent fin prior
  have hn : st.zoneCounts.keys.Nodup ∧ st.slotCountsByZone.keys.Nodup := by
    rw [hst]; exact ingestFile_keys_nodup fin prior
  have hall : allSlots st = busySlots st.slotCountsByZone := (busySlots_eq st hn.2).symm
  have pz := topZones_all L hL st st.zoneCounts.length (le_refl _)
  have ps := topBusySlots_all L hL st (allSlots st).length (by rw [hall])
  have hzsum : ((topZones L st st.zoneCounts.length).map ZoneCount.count).sum =
      (st.zoneCounts.map Prod.snd).sum := by
    rw [(pz.map ZoneCount.count).sum_eq, List.map_map]
    rfl
  have hfilter : ∀ p ∈ st.zoneCounts, ∃ arr, arr.length = 24 ∧ p.2 = arr.sum ∧
      ((topBusySlots L st (allSlots st).length).filter
        (fun s => decide (s.zone = p.1))).Perm (zoneSlots (p.1, arr)) := by
    intro p hp
    obtain ⟨arr, hm, hl, hs⟩ := zone_entry_slots st hc hn.1 p hp
    refine ⟨arr, hl, hs, ?_⟩
    have := busySlots_filter_zone st.slotCountsByZone hn.2 (p.1, arr) hm
    rw [← this]
    exact ps.filter _
  have hentry : ∀ e ∈ topZones L st st.zoneCounts.length,
      ∃ p ∈ st.zoneCounts, e = ZoneCount.mk p.1 p.2 := by
    intro e he
    have := pz.subset he
    simp only [List.mem_map] at this
    obtain ⟨p, hp, rfl⟩ := this
    exact ⟨p, hp, rfl⟩
  refine ⟨?_, ?_, ?_, hb.2.1, ?_⟩
  · rw [hzsum, hb.2.2, (ps.map SlotCount.count).sum_eq, busySlots_sum _ hb.1]
  · intro hdr rows eol hl hfin
    rw [hzsum, hst, hfin, ingestFile_fileBytes hdr rows eol prior hl]
    exact total_foldl rows
  · intro e he
    obtain ⟨p, hp, rfl⟩ := hentry e he
    obtain ⟨arr, hl, hs, hperm⟩ := hfilter p hp
    show p.2 = _
    rw [(hperm.map SlotCount.count).sum_eq, zoneSlots_sum (p.1, arr) hl]
    exact hs
  · intro e he
    obtain ⟨p, hp, rfl⟩ := hentry e he
    obtain ⟨arr, hl, hs, hperm⟩ := hfilter p hp
    have h1 := hb.2.1 p hp
    have hsum := zoneSlots_sum (p.1, arr) hl
    show 1 ≤ (List.filter (fun (s : SlotCount) => decide (s.zone = p.1)) _).length ∧
      (List.filter (fun (s : SlotCount) => decide (s.zone = p.1)) _).length ≤ 24
    rw [hperm.length_eq]
    refine ⟨?_, zoneSlots_length _⟩
    cases hz : zoneSlots (p.1, arr) with
    | nil =>
      rw [hz] at hsum
      simp only [List.map_nil, List.sum_nil] at hsum
      omega
    | cons a l => simp

theorem reports_conserve_rows_witness :
    refAlgorithms.Conforms ∧
    ((topZones refAlgorithms
        (ingestFile (some (fileBytes [ascii "hdr", ascii "T1,Z1,Z9,2023-05-01 08:15",
          ascii "bad", ascii "T3,Z2,Z9,2023-05-01 23:59"] true))
          { zoneCounts := [], slotCountsByZone := [] })
        (ingestFile (some (fileBytes [ascii "hdr", ascii "T1,Z1,Z9,2023-05-01 08:15",
          ascii "bad", ascii "T3,Z2,Z9,2023-05-01 23:59"] true))
          { zoneCounts := [], slotCountsByZone := [] }).zoneCounts.length).map
        ZoneCount.count).sum =
      acceptedCount [ascii "T1,Z1,Z9,2023-05-01 08:15", ascii "bad",
        ascii "T3,Z2,Z9,2023-05-01 23:59"] :=
  ⟨refAlgorithms_conforms,
    (reports_conserve_rows refAlgorithms refAlgorithms_conforms _
      { zoneCounts := [], slotCountsByZone := [] } _ rfl).2.1
      (ascii "hdr") _ true (by decide) rfl⟩

/-- Claim C20.  The order of the data rows does not matter: for a header line
and two lists of data lines that are permutations of each other, the two loads
give the same mappings (every key has the same value in both states, so the
entry lists are rearrangements of each other), and `topZones(k)` and
`topBusySlots(k)` return the same sequences for every `k`. -/
theorem ingestFile_row_order (L : StdAlgorithms) (hL : L.Conforms) (hdr : Str)
    (rows1 rows2 : List Str) (eol : Bool) (prior : State)
    (hl : ∀ l ∈ hdr :: rows1, IsLine l) (hp : rows1.Perm rows2) :
    SameMaps (ingestFile (some (fileBytes (hdr :: rows1) eol)) prior)
      (ingestFile (some (fileBytes (hdr :: rows2) eol)) prior) ∧
    (ingestFile (some (fileBytes (hdr :: rows1) eol)) prior).zoneCounts.Perm
      (ingestFile (some (fileBytes (hdr :: rows2) eol)) prior).zoneCounts ∧
    (ingestFile (some (fileBytes (hdr :: rows1) eol)) prior).slotCountsByZone.Perm
      (ingestFile (some (fileBytes (hdr :: rows2) eol)) prior).slotCountsByZone ∧
    ∀ k, topZones L (ingestFile (some (fileBytes (hdr :: rows1) eol)) prior) k =
        topZones L (ingestFile (some (fileBytes (hdr :: rows2) eol)) prior) k ∧
      topBusySlots L (ingestFile (some (fileBytes (hdr :: rows1) eol)) prior) k =
        topBusySlots L (ingestFile (some (fileBytes (hdr :: rows2) eol)) prior) k := by
  have hl2 : ∀ l ∈ hdr :: rows2, IsLine l := by
    intro l hm
    rcases List.mem_cons.1 hm with e | e
    · exact hl l (by rw [e]; exact List.mem_cons_self _ _)
    · exact hl l (List.mem_cons_of_mem _ (hp.symm.subset e))
  have n1 := ingestFile_keys_nodup (some (fileBytes (hdr :: rows1) eol)) prior
  have n2 := ingestFile_keys_nodup (some (fileBytes (hdr :: rows2) eol)) prior
  have hsame : SameMaps (ingestFile (some (fileBytes (hdr :: rows1) eol)) prior)
      (ingestFile (some (fileBytes (hdr :: rows2) eol)) prior) := by
    rw [ingestFile_fileBytes hdr rows1 eol prior hl, ingestFile_fileBytes hdr rows2 eol prior hl2]
    exact counted_perm rows1 rows2 hp _ _ (counted_foldl rows1) (counted_foldl rows2)
  have pz := perm_of_same_find _ _ n1.1 n2.1 hsame.1
  have ps := perm_of_same_find _ _ n1.2 n2.2 hsame.2
  exact ⟨hsame, pz, ps, fun k =>
    ⟨topZones_of_perm L L hL hL _ _ pz k, topBusySlots_of_perm L L hL hL _ _ ps k⟩⟩

theorem ingestFile_row_order_witness :
    refAlgorithms.Conforms ∧
    (∀ l ∈ ascii "hdr" :: [ascii "T1,Z1,Z9,2023-05-01 08:15", ascii "T3,Z2,Z9,2023-05-01 23:59"],
      IsLine l) ∧
    List.Perm [ascii "T1,Z1,Z9,2023-05-01 08:15", ascii "T3,Z2,Z9,2023-05-01 23:59"]
      [ascii "T3,Z2,Z9,2023-05-01 23:59", ascii "T1,Z1,Z9,2023-05-01 08:15"] ∧
    SameMaps
      (ingestFile (some (fileBytes (ascii "hdr" ::
        [ascii "T1,Z1,Z9,2023-05-01 08:15", ascii "T3,Z2,Z9,2023-05-01 23:59"]) true))
        { zoneCounts := [], slotCountsByZone := [] })
      (ingestFile (some (fileBytes (ascii "hdr" ::
        [ascii "T3,Z2,Z9,2023-05-01 23:59", ascii "T1,Z1,Z9,2023-05-01 08:15"]) true))
        { zoneCounts := [], slotCountsByZone := [] }) :=
  ⟨refAlgorithms_conforms, by decide, by decide,
    (ingestFile_row_order refAlgorithms refAlgorithms_conforms _ _ _ true _ (by decide)
      (by decide)).1⟩

end TripAnalyzer
